/-
Verification of the "Baby Trapped" weight-scale game (sourishsharma17/scale-test).

The repository holds two near-duplicate script variants:
  * `a.py`          — fixed-width frame decoder ('=' + 7 reversed chars), EMA
                      smoothing, phase-string state machine, baseline capped at
                      100 kg in display space;
  * `scales_game.py` — regex-based reader, trailing-median smoothing, armed-flag
                      state machine with hidden detection thresholds derived from
                      the arming reading capped at 112 kg.

This file embeds both variants shallowly:
  * bytes are modelled as `List ℕ` of byte values (ASCII codes);
  * Python floats are modelled as `ℚ` (real-valued arithmetic; none of the
    verified statements depends on binary floating-point representation
    artefacts, and the concrete test points used below behave identically
    in IEEE double and in ℚ);
  * wall-clock timestamps are `ℚ`; the code's "0.0 means unset" sentinel is
    kept verbatim, with positivity of genuine timestamps as a hypothesis;
  * the outbound Companion HTTP calls (`press_companion`) are modelled as an
    emitted event list (`Ev`), since the code ignores their results.
-/
import Mathlib

set_option linter.unusedVariables false

namespace ScaleTest

/-! ## Rounding (both files, `round_to_step_nearest`)

Python 3's built-in `round` rounds half to even (banker's rounding) and
returns an `int` when called with one argument.  `pyRound` models it on ℚ. -/

/-- Model of Python 3 `round(x)`: nearest integer, ties to even. -/
def pyRound (x : ℚ) : ℤ :=
  let f : ℤ := ⌊x⌋
  let r : ℚ := x - f
  if r < 1/2 then f
  else if 1/2 < r then f + 1
  else if f % 2 = 0 then f else f + 1

/-- `round_to_step_nearest(x, step) = round(x / step) * step` (both files). -/
def round_to_step_nearest (x step : ℚ) : ℚ :=
  (pyRound (x / step) : ℚ) * step

/-- Model of Python 3 `round(x, 2)` (used in `scales_game.py` `dev_arm`). -/
def pyRound2 (x : ℚ) : ℚ :=
  (pyRound (x * 100) : ℚ) / 100

/-- `scales_game.py` constants (hard-coded config). -/
def MIN_TRIGGER_KG : ℚ := 35
def STABLE_SECONDS : ℚ := 3
def DISPLAY_FACTOR : ℚ := 9/10
def DISPLAY_STEP_KG : ℚ := 1/2
def DROP_FACTOR : ℚ := 9/10
def RESTORE_FACTOR : ℚ := 9/10
def DROP_HOLDDOWN_S : ℚ := 2/5
def RESTORE_HOLDDOWN_S : ℚ := 3/10
def SMOOTH_WINDOW : ℕ := 4
/-- The arming-reading cap used for detection thresholds (`min(actual, 112.0)`). -/
def CAP_KG : ℚ := 112

/-- `display_round_nearest(actual) = round_to_step_nearest(actual * 0.90, 0.5)`. -/
def display_round_nearest (actual : ℚ) : ℚ :=
  round_to_step_nearest (actual * DISPLAY_FACTOR) DISPLAY_STEP_KG

/-! ## Numeric string parsing

`pyFloat?` models Python `float(s)` on the short ASCII payloads produced by the
frame decoders: optional surrounding whitespace, optional sign, decimal digits
with at most one dot (at least one digit), and an optional exponent part.
(The special spellings `inf`/`nan` and digit-group underscores are not
produced by a 7-character reversed digit payload and are not modelled.) -/

def isSpaceByte (c : ℕ) : Bool :=
  c == 32 || c == 9 || c == 10 || c == 13 || c == 11 || c == 12

def isDigitByte (c : ℕ) : Bool :=
  48 ≤ c && c ≤ 57

def isDigitDotByte (c : ℕ) : Bool :=
  isDigitByte c || c == 46

/-- Numeric value of a digit run (most significant first). -/
def digitsVal (l : List ℕ) : ℚ :=
  l.foldl (fun a c => 10 * a + ((c - 48 : ℕ) : ℚ)) 0

/-- Mantissa: `digits`, `digits.digits`, `digits.`, `.digits`. -/
def parseMantissa (m : List ℕ) : Option ℚ :=
  let intPart := m.takeWhile isDigitByte
  let rest := m.dropWhile isDigitByte
  match rest with
  | [] => if intPart.isEmpty then none else some (digitsVal intPart)
  | 46 :: frac =>
      if frac.all isDigitByte ∧ (intPart ≠ [] ∨ frac ≠ []) then
        some (digitsVal intPart + digitsVal frac / (10 : ℚ) ^ frac.length)
      else none
  | _ => none

/-- Exponent: optional sign then a nonempty digit run. -/
def parseExp (l : List ℕ) : Option ℤ :=
  let (sign, body) :=
    match l with
    | 43 :: r => ((1 : ℤ), r)
    | 45 :: r => ((-1 : ℤ), r)
    | _ => ((1 : ℤ), l)
  if body ≠ [] ∧ body.all isDigitByte then
    some (sign * (body.foldl (fun a c => 10 * a + ((c - 48 : ℕ) : ℤ)) 0))
  else none

/-- Model of Python `float(s)` on a list of ASCII codes. -/
def pyFloat? (s : List ℕ) : Option ℚ :=
  let t := ((s.dropWhile isSpaceByte).reverse.dropWhile isSpaceByte).reverse
  let (sign, body) :=
    match t with
    | 43 :: r => ((1 : ℚ), r)
    | 45 :: r => ((-1 : ℚ), r)
    | _ => ((1 : ℚ), t)
  match body.findIdx? (fun c => c == 101 || c == 69) with
  | none =>
      match parseMantissa body with
      | some m => some (sign * m)
      | none => none
  | some i =>
      match parseMantissa (body.take i), parseExp (body.drop (i + 1)) with
      | some m, some e => some (sign * m * (10 : ℚ) ^ e)
      | _, _ => none

/-! ## Frame decoder of `a.py` (`decode_weight_from_stream`)

A frame is the byte `'='` (61) followed by exactly 7 bytes.  The 7-byte
segment is decoded as ASCII with `errors="ignore"` (bytes ≥ 128 dropped; if
that leaves fewer than 7 characters the frame is skipped), reversed, parsed
with `float`, and the result multiplied by 0.9 (the file's "NEW RULE").
If no `'='` is present, only the last 32 bytes are retained.  -/

/-- Parse one 7-byte segment the way `decode_weight_from_stream` does. -/
def parseWeight (seg : List ℕ) : Option ℚ :=
  let s := seg.filter (fun c => c < 128)
  if s.length = 7 then
    match pyFloat? s.reverse with
    | some q => some (q * (9/10))
    | none => none
  else none

/-- Index of the first `'='` (byte 61), modelling `buffer.index(ord('='))`
guarded by `try/except ValueError`. -/
def idxEq : List ℕ → Option ℕ
  | [] => none
  | b :: r => if b = 61 then some 0 else (idxEq r).map (· + 1)

/-- `decode_weight_from_stream`: returns the decoded readings (oldest first)
and the mutated buffer (the carried-over tail). -/
def decode_weight_from_stream (buf : List ℕ) : List ℚ × List ℕ :=
  match idxEq buf with
  | none =>
      ([], if 32 < buf.length then buf.drop (buf.length - 32) else buf)
  | some idx =>
      if hle : idx + 8 ≤ buf.length then
        let res := decode_weight_from_stream (buf.drop (idx + 8))
        match parseWeight ((buf.drop (idx + 1)).take 7) with
        | some w => (w :: res.1, res.2)
        | none => res
      else
        ([], buf.drop idx)
termination_by buf.length
decreasing_by
  simp only [List.length_drop]
  omega

/-- Feeding a list of chunks through `decode_weight_from_stream` one call at a
time, threading the carried-over buffer exactly as `reader_loop` does
(`buf.extend(chunk); frames = decode_weight_from_stream(buf)`). -/
def decodeChunked (buf : List ℕ) : List (List ℕ) → List ℚ × List ℕ
  | [] => ([], buf)
  | c :: cs =>
      let r1 := decode_weight_from_stream (buf ++ c)
      let r2 := decodeChunked r1.2 cs
      (r1.1 ++ r2.1, r2.2)

/-! ### Decoder lemmas -/

theorem idxEq_eq_none_iff {l : List ℕ} : idxEq l = none ↔ ∀ b ∈ l, b ≠ 61 := by
  induction l with
  | nil => simp [idxEq]
  | cons b r ih =>
      by_cases hb : b = 61 <;>
        simp [idxEq, hb, ih]


theorem idxEq_append_of_none {g : List ℕ} (d : List ℕ) (h : idxEq g = none) :
    idxEq (g ++ d) = (idxEq d).map (g.length + ·) := by
  induction g with
  | nil =>
      simp only [List.nil_append, List.length_nil]
      cases idxEq d <;> simp
  | cons b r ih =>
      simp only [idxEq] at h
      by_cases hb : b = 61
      · rw [if_pos hb] at h; simp at h
      · rw [if_neg hb] at h
        have hr : idxEq r = none := by simpa using h
        rw [List.cons_append]
        simp only [idxEq, hb, if_false]
        rw [ih hr]
        cases idxEq d
        · simp
        · simp [List.length_cons]; omega

theorem idxEq_append_of_some {b : List ℕ} {i : ℕ} (c : List ℕ) (h : idxEq b = some i) :
    idxEq (b ++ c) = some i := by
  induction b generalizing i with
  | nil => simp [idxEq] at h
  | cons x r ih =>
      rw [List.cons_append]
      simp only [idxEq] at h ⊢
      by_cases hx : x = 61
      · rw [if_pos hx] at h ⊢; exact h
      · rw [if_neg hx] at h ⊢
        cases hr : idxEq r with
        | none => rw [hr] at h; simp at h
        | some j =>
            rw [hr] at h; simp at h; subst h
            rw [ih hr]; rfl

theorem idxEq_some_lt {l : List ℕ} {i : ℕ} (h : idxEq l = some i) : i < l.length := by
  induction l generalizing i with
  | nil => simp [idxEq] at h
  | cons b r ih =>
      simp only [idxEq] at h
      by_cases hb : b = 61
      · rw [if_pos hb] at h; cases h; simp
      · rw [if_neg hb] at h
        cases hr : idxEq r with
        | none => rw [hr] at h; simp at h
        | some j =>
            rw [hr] at h; simp at h; subst h
            have := ih hr
            simp only [List.length_cons]; omega

theorem idxEq_drop_of_none {l : List ℕ} (k : ℕ) (h : idxEq l = none) :
    idxEq (l.drop k) = none := by
  rw [idxEq_eq_none_iff] at h ⊢
  exact fun b hb => h b (List.mem_of_mem_drop hb)

theorem idxEq_drop_eq {l : List ℕ} {i : ℕ} (h : idxEq l = some i) :
    l.drop i = 61 :: l.drop (i + 1) := by
  induction l generalizing i with
  | nil => simp [idxEq] at h
  | cons x r ih =>
      simp only [idxEq] at h
      by_cases hx : x = 61
      · rw [if_pos hx] at h; cases h; simp [hx]
      · rw [if_neg hx] at h
        cases hr : idxEq r with
        | none => rw [hr] at h; simp at h
        | some j =>
            rw [hr] at h; simp at h; subst h
            rw [List.drop_succ_cons, List.drop_succ_cons]
            exact ih hr

theorem idxEq_mem {l : List ℕ} {i : ℕ} (h : idxEq l = some i) : 61 ∈ l := by
  have hd : 61 ∈ l.drop i := by rw [idxEq_drop_eq h]; exact List.mem_cons_self 61 _
  exact List.mem_of_mem_drop hd

theorem idxEq_take_none {l : List ℕ} {i : ℕ} (h : idxEq l = some i) :
    idxEq (l.take i) = none := by
  induction l generalizing i with
  | nil => simp [idxEq]
  | cons x r ih =>
      simp only [idxEq] at h
      by_cases hx : x = 61
      · rw [if_pos hx] at h; cases h; simp [idxEq]
      · rw [if_neg hx] at h
        cases hr : idxEq r with
        | none => rw [hr] at h; simp at h
        | some j =>
            rw [hr] at h; simp at h; subst h
            rw [List.take_succ_cons]
            simp only [idxEq, hx, if_false]
            rw [ih hr]; rfl

/-- Unfolding: no sentinel byte present. -/
theorem decode_of_none {buf : List ℕ} (h : idxEq buf = none) :
    decode_weight_from_stream buf =
      ([], if 32 < buf.length then buf.drop (buf.length - 32) else buf) := by
  rw [decode_weight_from_stream, h]

/-- Unfolding: complete frame present at the first sentinel. -/
theorem decode_of_full {buf : List ℕ} {idx : ℕ} (h : idxEq buf = some idx)
    (hle : idx + 8 ≤ buf.length) :
    decode_weight_from_stream buf =
      (match parseWeight ((buf.drop (idx + 1)).take 7) with
       | some w => (w :: (decode_weight_from_stream (buf.drop (idx + 8))).1,
                    (decode_weight_from_stream (buf.drop (idx + 8))).2)
       | none => decode_weight_from_stream (buf.drop (idx + 8))) := by
  rw [decode_weight_from_stream, h]
  simp only [hle, dif_pos]

/-- Unfolding: sentinel present but the trailing frame is incomplete. -/
theorem decode_of_incomplete {buf : List ℕ} {idx : ℕ} (h : idxEq buf = some idx)
    (hgt : ¬ idx + 8 ≤ buf.length) :
    decode_weight_from_stream buf = ([], buf.drop idx) := by
  rw [decode_weight_from_stream, h]
  exact dif_neg hgt

/-- A sentinel-free prefix in front of a buffer that does contain a sentinel
is transparent to the decoder. -/
theorem decode_junk_skip {g : List ℕ} (d : List ℕ) (hg : idxEq g = none)
    (hd : (idxEq d).isSome) :
    decode_weight_from_stream (g ++ d) = decode_weight_from_stream d := by
  rcases Option.isSome_iff_exists.mp hd with ⟨j, hj⟩
  have hgd : idxEq (g ++ d) = some (g.length + j) := by
    rw [idxEq_append_of_none d hg, hj]; rfl
  by_cases hfull : j + 8 ≤ d.length
  · have hfull' : (g.length + j) + 8 ≤ (g ++ d).length := by
      simp only [List.length_append]; omega
    rw [decode_of_full hgd hfull', decode_of_full hj hfull]
    have h1 : (g ++ d).drop (g.length + j + 1) = d.drop (j + 1) := by
      have h := @List.drop_append _ g d (j + 1)
      rw [← h]; ring_nf
    have h8 : (g ++ d).drop (g.length + j + 8) = d.drop (j + 8) := by
      have h := @List.drop_append _ g d (j + 8)
      rw [← h]; ring_nf
    rw [h1, h8]
  · have hpart' : ¬ ((g.length + j) + 8 ≤ (g ++ d).length) := by
      simp only [List.length_append]; omega
    rw [decode_of_incomplete hgd hpart', decode_of_incomplete hj hfull]
    have h := @List.drop_append _ g d j
    rw [h]

theorem keepTail_length_le (l : List ℕ) :
    (if 32 < l.length then l.drop (l.length - 32) else l).length ≤ 32 := by
  split
  · simp only [List.length_drop]; omega
  · omega

theorem keepTail_eq_drop (l : List ℕ) :
    (if 32 < l.length then l.drop (l.length - 32) else l) = l.drop (l.length - 32) := by
  split
  · rfl
  · rw [Nat.sub_eq_zero_of_le (by omega), List.drop_zero]

/-- Retaining only the last 32 bytes of a sentinel-free buffer does not change
what a later truncation of the extended buffer retains. -/
theorem keepTail_append (b c : List ℕ) :
    ((if 32 < b.length then b.drop (b.length - 32) else b) ++ c).drop
      (((if 32 < b.length then b.drop (b.length - 32) else b) ++ c).length - 32) =
    (b ++ c).drop ((b ++ c).length - 32) := by
  by_cases h32 : 32 < b.length
  · rw [if_pos h32]
    have hb : b = b.take (b.length - 32) ++ b.drop (b.length - 32) :=
      (List.take_append_drop _ b).symm
    have hlen : (b.drop (b.length - 32)).length = 32 := by simp; omega
    conv_rhs => rw [hb]
    rw [List.append_assoc]
    have harith : (b.take (b.length - 32) ++ (b.drop (b.length - 32) ++ c)).length - 32 =
        (b.take (b.length - 32)).length + ((b.drop (b.length - 32) ++ c).length - 32) := by
      simp only [List.length_append]
      simp [hlen]
      omega
    rw [harith, List.drop_append]
  · rw [if_neg h32]

/-- The residual buffer left by the decoder is inert: decoding it again (with
nothing appended) yields no readings and leaves it unchanged. -/
theorem decode_resid_inert (b : List ℕ) :
    decode_weight_from_stream ((decode_weight_from_stream b).2) =
      ([], (decode_weight_from_stream b).2) := by
  generalize hn : b.length = n
  induction n using Nat.strong_induction_on generalizing b with
  | _ n ih =>
  rcases hidx : idxEq b with _ | idx
  · rw [decode_of_none hidx]
    have hnone : idxEq (if 32 < b.length then b.drop (b.length - 32) else b) = none := by
      split
      · exact idxEq_drop_of_none _ hidx
      · exact hidx
    rw [decode_of_none hnone]
    have hlen := keepTail_length_le b
    rw [if_neg (by omega)]
  · by_cases hle : idx + 8 ≤ b.length
    · rw [decode_of_full hidx hle]
      have hlt : (b.drop (idx + 8)).length < n := by
        simp only [List.length_drop]; omega
      have hih := ih _ hlt (b.drop (idx + 8)) rfl
      rcases parseWeight ((b.drop (idx + 1)).take 7) with _ | w <;> simpa using hih
    · rw [decode_of_incomplete hidx hle]
      have hlt := idxEq_some_lt hidx
      have hd : idxEq (b.drop idx) = some 0 := by
        rw [idxEq_drop_eq hidx]; simp [idxEq]
      have hd8 : ¬ (0 + 8 ≤ (b.drop idx).length) := by
        simp only [List.length_drop]; omega
      rw [decode_of_incomplete hd hd8, List.drop_zero]

/-- Decoding distributes over appending more bytes: decoding `b ++ c` in one
call equals decoding `b` first and then decoding the carried-over residual
with `c` appended, concatenating the outputs. -/
theorem decode_append (b c : List ℕ) :
    decode_weight_from_stream (b ++ c) =
      ((decode_weight_from_stream b).1 ++
        (decode_weight_from_stream ((decode_weight_from_stream b).2 ++ c)).1,
       (decode_weight_from_stream ((decode_weight_from_stream b).2 ++ c)).2) := by
  generalize hn : b.length = n
  induction n using Nat.strong_induction_on generalizing b with
  | _ n ih =>
  rcases hidx : idxEq b with _ | idx
  · rw [decode_of_none hidx]
    simp only [List.nil_append]
    have hrnone : idxEq (if 32 < b.length then b.drop (b.length - 32) else b) = none := by
      split
      · exact idxEq_drop_of_none _ hidx
      · exact hidx
    rcases hc : idxEq c with _ | j
    · have hbc : idxEq (b ++ c) = none := by
        rw [idxEq_append_of_none c hidx, hc]; rfl
      have hrc : idxEq ((if 32 < b.length then b.drop (b.length - 32) else b) ++ c) = none := by
        rw [idxEq_append_of_none c hrnone, hc]; rfl
      rw [decode_of_none hbc, decode_of_none hrc,
        keepTail_eq_drop (b ++ c),
        keepTail_eq_drop ((if 32 < b.length then b.drop (b.length - 32) else b) ++ c),
        keepTail_append b c]
    · have hsome : (idxEq c).isSome := by rw [hc]; rfl
      rw [decode_junk_skip c hidx hsome, decode_junk_skip c hrnone hsome]
  · by_cases hle : idx + 8 ≤ b.length
    · have hbc : idxEq (b ++ c) = some idx := idxEq_append_of_some c hidx
      have hlebc : idx + 8 ≤ (b ++ c).length := by
        simp only [List.length_append]; omega
      rw [decode_of_full hbc hlebc, decode_of_full hidx hle]
      have hdrop1 : (b ++ c).drop (idx + 1) = b.drop (idx + 1) ++ c :=
        List.drop_append_of_le_length (by omega)
      have hdrop8 : (b ++ c).drop (idx + 8) = b.drop (idx + 8) ++ c :=
        List.drop_append_of_le_length (by omega)
      have hseg : ((b ++ c).drop (idx + 1)).take 7 = (b.drop (idx + 1)).take 7 := by
        rw [hdrop1]
        rw [List.take_append_of_le_length (by simp only [List.length_drop]; omega)]
      have hlt : (b.drop (idx + 8)).length < n := by
        simp only [List.length_drop]; omega
      have hih := ih _ hlt (b.drop (idx + 8)) rfl
      rw [hseg, hdrop8, hih]
      rcases parseWeight ((b.drop (idx + 1)).take 7) with _ | w <;> simp
    · -- partial frame at the end of b
      rw [decode_of_incomplete hidx hle]
      have hjunk : idxEq (b.take idx) = none := idxEq_take_none hidx
      have hd0 : idxEq (b.drop idx) = some 0 := by
        rw [idxEq_drop_eq hidx]; simp [idxEq]
      have hsome : (idxEq (b.drop idx ++ c)).isSome := by
        rw [idxEq_append_of_some c hd0]; rfl
      calc decode_weight_from_stream (b ++ c)
          = decode_weight_from_stream (b.take idx ++ (b.drop idx ++ c)) := by
            rw [← List.append_assoc, List.take_append_drop]
        _ = decode_weight_from_stream (b.drop idx ++ c) :=
            decode_junk_skip _ hjunk hsome
        _ = _ := by simp

/-- Chunked decoding agrees with one-shot decoding: starting from an inert
buffer, feeding any chunk sequence equals decoding the concatenation. -/
theorem decodeChunked_eq (cs : List (List ℕ)) :
    ∀ buf, decode_weight_from_stream buf = ([], buf) →
      decodeChunked buf cs = decode_weight_from_stream (buf ++ cs.flatten) := by
  induction cs with
  | nil =>
      intro buf hin
      simp [decodeChunked, hin]
  | cons c cs ih =>
      intro buf hin
      have happ := decode_append (buf ++ c) cs.flatten
      have hresid := decode_resid_inert (buf ++ c)
      simp only [decodeChunked]
      rw [ih _ hresid]
      rw [List.flatten_cons, ← List.append_assoc, happ]

/-! ## Reader of `scales_game.py`

`reader_loop` there accumulates decoded text in `buf`, runs
`re.findall(r'=\\s*([0-9.]+)', buf)` over the whole buffer, truncates the
buffer to its last 64 characters once it exceeds 256 characters, and then
processes (at most) the last three matches with `reverse_weight_string`.
Matched characters are never removed from the buffer. -/

/-- `reverse_weight_string`: reverse the matched characters and parse. -/
def reverse_weight_string (raw : List ℕ) : Option ℚ :=
  pyFloat? raw.reverse

theorem length_dropWhile_le (p : ℕ → Bool) (l : List ℕ) :
    (l.dropWhile p).length ≤ l.length :=
  (List.dropWhile_suffix p).sublist.length_le

theorem length_dropWhile_dropWhile_lt (p q : ℕ → Bool) (c : ℕ) (rest : List ℕ) :
    ((rest.dropWhile p).dropWhile q).length < (c :: rest).length := by
  have h1 := length_dropWhile_le q (rest.dropWhile p)
  have h2 := length_dropWhile_le p rest
  simp only [List.length_cons]; omega

/-- `re.findall(r'=\\s*([0-9.]+)', s)`: the captured digit groups of all
non-overlapping matches, scanning left to right. -/
def findallWeights : List ℕ → List (List ℕ)
  | [] => []
  | c :: rest =>
      if c = 61 then
        let afterWs := rest.dropWhile isSpaceByte
        let digits := afterWs.takeWhile isDigitDotByte
        if digits.isEmpty then findallWeights rest
        else digits :: findallWeights (afterWs.dropWhile isDigitDotByte)
      else findallWeights rest
termination_by l => l.length
decreasing_by
  all_goals
    first
    | (simp only [List.length_cons]; omega)
    | exact length_dropWhile_dropWhile_lt _ _ _ _

/-- One iteration of `reader_loop`'s chunk handling in `scales_game.py`:
append the chunk, find all matches in the whole buffer, truncate the buffer,
then decode the last three matches.  Returns (new buffer, readings). -/
def sg_read_chunk (buf chunk : List ℕ) : List ℕ × List ℚ :=
  let buf1 := buf ++ chunk
  let ms := findallWeights buf1
  let buf2 := if 256 < buf1.length then buf1.drop (buf1.length - 64) else buf1
  (buf2, (ms.drop (ms.length - 3)).filterMap reverse_weight_string)

/-- Iterated `scales_game.py` reader feeds, accumulating the readings that
reach the state machine. -/
def sg_read_run (buf : List ℕ) : List (List ℕ) → List ℚ
  | [] => []
  | c :: cs =>
      let r := sg_read_chunk buf c
      r.2 ++ sg_read_run r.1 cs

/-! ## State machine of `scales_game.py` -/

/-- Transition events relayed to the Companion box (`press_companion`).
The code fires the HTTP call and ignores its result, so only the emission
itself is modelled. -/
inductive Ev
  | Trapped
  | Drop
  | Restore
deriving Repr, DecidableEq

/-- The `GameState` dataclass of `scales_game.py`, plus the module-level
`history` list used for median smoothing. -/
structure GameState where
  armed : Bool := false
  last_seen_kg : Option ℚ := none
  smoothed_kg : Option ℚ := none
  display_kg : Option ℚ := none
  baseline_display_kg : Option ℚ := none
  arming_actual_kg : Option ℚ := none
  capped_arm_actual_kg : Option ℚ := none
  drop_limit_actual_kg : Option ℚ := none
  restore_limit_actual_kg : Option ℚ := none
  is_below : Bool := false
  above_start : ℚ := 0
  below_start : ℚ := 0
  above_limit_start : ℚ := 0
  updated : ℚ := 0
  last_ascii : List ℕ := []
  history : List ℚ := []
deriving Repr, DecidableEq

/-- The module-level initial state (dataclass defaults, empty history). -/
def initState : GameState := {}

/-- `step_state_machine_locked` of `scales_game.py`.  `now` is the
`time.time()` value read at the top of the function. -/
def step_state_machine_locked (now : ℚ) (s : GameState) : GameState × List Ev :=
  match s.smoothed_kg, s.display_kg with
  | some actual, some disp =>
      if s.armed = false then
        if MIN_TRIGGER_KG ≤ actual then
          let s1 := if s.above_start = 0 then { s with above_start := now } else s
          if STABLE_SECONDS ≤ now - s1.above_start then
            let capped := min actual CAP_KG
            ({ s1 with
                armed := true,
                arming_actual_kg := some actual,
                capped_arm_actual_kg := some capped,
                drop_limit_actual_kg := some (capped * DROP_FACTOR),
                restore_limit_actual_kg := some (capped * RESTORE_FACTOR),
                baseline_display_kg :=
                  some (if CAP_KG < actual then 100 else display_round_nearest actual),
                is_below := false,
                below_start := 0,
                above_limit_start := 0 }, [Ev.Trapped])
          else (s1, [])
        else ({ s with above_start := 0 }, [])
      else
        match s.drop_limit_actual_kg, s.restore_limit_actual_kg with
        | some drop_limit, some restore_limit =>
            if s.is_below then
              if restore_limit ≤ actual then
                let s1 := if s.above_limit_start = 0 then
                    { s with above_limit_start := now } else s
                if RESTORE_HOLDDOWN_S ≤ now - s1.above_limit_start then
                  ({ s1 with is_below := false, below_start := 0, above_limit_start := 0 },
                   [Ev.Restore])
                else (s1, [])
              else ({ s with above_limit_start := 0 }, [])
            else
              if actual < drop_limit then
                let s1 := if s.below_start = 0 then { s with below_start := now } else s
                if DROP_HOLDDOWN_S ≤ now - s1.below_start then
                  ({ s1 with is_below := true, below_start := 0, above_limit_start := 0 },
                   [Ev.Drop])
                else (s1, [])
              else ({ s with below_start := 0 }, [])
        | _, _ => (s, [])
  | _, _ => (s, [])

/-- Sorted insertion (used to model the sort inside `statistics.median`). -/
def insertSorted (x : ℚ) : List ℚ → List ℚ
  | [] => [x]
  | y :: ys => if x ≤ y then x :: y :: ys else y :: insertSorted x ys

def sortQ (l : List ℚ) : List ℚ := l.foldr insertSorted []

/-- `statistics.median`: middle element of the sorted list, or the mean of
the two middle elements for even length (callers never pass `[]`; the
`StatisticsError` fallback is modelled at the call site). -/
def median (l : List ℚ) : ℚ :=
  let s := sortQ l
  let n := s.length
  if n % 2 = 1 then s.getD (n / 2) 0
  else (s.getD (n / 2 - 1) 0 + s.getD (n / 2) 0) / 2

/-- The per-reading critical section of `reader_loop` in `scales_game.py`:
record the raw reading, push it into `history` (bounded to the last
`SMOOTH_WINDOW` entries), recompute the median and the display value, then
step the state machine. -/
def sg_process_reading (now actual_kg : ℚ) (raw : List ℕ) (s : GameState) :
    GameState × List Ev :=
  let h1 := s.history ++ [actual_kg]
  let h2 := if max 1 SMOOTH_WINDOW < h1.length then h1.drop (h1.length - SMOOTH_WINDOW) else h1
  let smoothed := if h2.isEmpty then actual_kg else median h2
  step_state_machine_locked now
    { s with
        last_seen_kg := some actual_kg,
        last_ascii := raw,
        history := h2,
        smoothed_kg := some smoothed,
        display_kg := some (display_round_nearest smoothed),
        updated := now }

/-- `_reset_state` of `scales_game.py` (also serving `/api/disarm`,
`/api/reset` and `/api/dev/disarm`): unconditional reset of every field and
of the smoothing history; emits nothing and always succeeds. -/
def _reset_state (now : ℚ) : GameState :=
  { armed := false, last_seen_kg := none, smoothed_kg := none, display_kg := none,
    baseline_display_kg := none, arming_actual_kg := none, capped_arm_actual_kg := none,
    drop_limit_actual_kg := none, restore_limit_actual_kg := none,
    is_below := false, above_start := 0, below_start := 0, above_limit_start := 0,
    updated := now, last_ascii := [], history := [] }

/-- `dev_arm` of `scales_game.py` (`/api/dev/arm/<kg>`). -/
def dev_arm (now actual : ℚ) (s : GameState) : GameState :=
  let capped := min actual CAP_KG
  let dropL := capped * DROP_FACTOR
  let restL := capped * RESTORE_FACTOR
  let baseline_display :=
    if CAP_KG < actual then (100 : ℚ)
    else pyRound2 ((pyRound (actual * DISPLAY_FACTOR / DISPLAY_STEP_KG) : ℚ) * DISPLAY_STEP_KG)
  { s with
    armed := true, arming_actual_kg := some actual,
    capped_arm_actual_kg := some capped, drop_limit_actual_kg := some dropL,
    restore_limit_actual_kg := some restL, baseline_display_kg := some baseline_display,
    display_kg := some baseline_display, is_below := false,
    above_start := 0, below_start := 0, above_limit_start := 0, updated := now }

/-- The operations that mutate the shared `scales_game.py` state. -/
inductive SOp
  | reading (now actual : ℚ)
  | disarm (now : ℚ)
  | devArm (now actual : ℚ)

def sg_apply (s : GameState) : SOp → GameState
  | .reading now actual => (sg_process_reading now actual [] s).1
  | .disarm now => _reset_state now
  | .devArm now actual => dev_arm now actual s

def sg_run (ops : List SOp) : GameState := ops.foldl sg_apply initState

/-! ## State machine of `a.py` -/

namespace APy

/-- The `phase` strings of `a.py`. -/
inductive Phase
  | WAITING
  | ARMING
  | TRAPPED
  | ESCAPE_ATTEMPT
deriving Repr, DecidableEq

/-- `a.py` config constants that differ from `scales_game.py`. -/
def ARM_HOLD_S : ℚ := 3
def DROP_HOLD_S : ℚ := 2/5
def RESTORE_HOLD_S : ℚ := 3/10
def SMOOTH_ALPHA : ℚ := 3/10

/-- The `GameState` dataclass of `a.py` (debug string fields omitted). -/
structure GameState where
  armed : Bool := false
  phase : Phase := .WAITING
  last_raw_kg : Option ℚ := none
  smoothed_kg : Option ℚ := none
  display_kg : Option ℚ := none
  baseline_display_kg : Option ℚ := none
  arming_actual_kg : Option ℚ := none
  arm_start : ℚ := 0
  drop_start : ℚ := 0
  restore_start : ℚ := 0
  updated : ℚ := 0
deriving Repr, DecidableEq

def initState : GameState := {}

/-- `step_state_machine_locked` of `a.py`.  Drop/restore compare the rounded
`display_kg` against `baseline_display_kg` (display space); arming compares
the smoothed actual against the trigger. -/
def step_state_machine_locked (now : ℚ) (s : GameState) : GameState × List Ev :=
  match s.smoothed_kg, s.display_kg with
  | some actual, some disp =>
      if (s.phase = .WAITING ∨ s.phase = .ARMING) ∧ s.armed = false then
        if MIN_TRIGGER_KG ≤ actual then
          let s1 := if s.phase = .WAITING then
              { s with phase := .ARMING, arm_start := now } else s
          if ARM_HOLD_S ≤ now - s1.arm_start then
            ({ s1 with
                armed := true, phase := .TRAPPED,
                arming_actual_kg := some actual,
                baseline_display_kg :=
                  some (round_to_step_nearest (min (1 * actual) 100) DISPLAY_STEP_KG),
                drop_start := 0, restore_start := 0 }, [Ev.Trapped])
          else (s1, [])
        else ({ s with phase := .WAITING, arm_start := 0 }, [])
      else if s.armed = false ∨ s.baseline_display_kg = none then (s, [])
      else
        match s.baseline_display_kg with
        | some B =>
            if s.phase = .TRAPPED then
              if disp < B then
                let s1 := if s.drop_start = 0 then { s with drop_start := now } else s
                if DROP_HOLD_S ≤ now - s1.drop_start then
                  ({ s1 with phase := .ESCAPE_ATTEMPT, drop_start := 0, restore_start := 0 },
                   [Ev.Drop])
                else (s1, [])
              else ({ s with drop_start := 0 }, [])
            else if s.phase = .ESCAPE_ATTEMPT then
              if B ≤ disp then
                let s1 := if s.restore_start = 0 then { s with restore_start := now } else s
                if RESTORE_HOLD_S ≤ now - s1.restore_start then
                  ({ s1 with phase := .TRAPPED, restore_start := 0, drop_start := 0 },
                   [Ev.Restore])
                else (s1, [])
              else ({ s with restore_start := 0 }, [])
            else (s, [])
        | none => (s, [])
  | _, _ => (s, [])

/-- The per-frame critical section of `reader_loop` in `a.py`: EMA smoothing
(first sample passes through unchanged), display rounding, then the machine
step. -/
def process_reading (now actual_kg : ℚ) (s : GameState) : GameState × List Ev :=
  let smoothed :=
    match s.smoothed_kg with
    | none => actual_kg
    | some prev => SMOOTH_ALPHA * actual_kg + (1 - SMOOTH_ALPHA) * prev
  step_state_machine_locked now
    { s with
      last_raw_kg := some actual_kg, updated := now,
      smoothed_kg := some smoothed,
      display_kg := some (round_to_step_nearest smoothed DISPLAY_STEP_KG) }

/-- `_reset_state` of `a.py`. -/
def _reset_state (now : ℚ) : GameState :=
  { armed := false, phase := .WAITING, last_raw_kg := none, smoothed_kg := none,
    display_kg := none, baseline_display_kg := none, arming_actual_kg := none,
    arm_start := 0, drop_start := 0, restore_start := 0, updated := now }

/-- `dev_arm` of `a.py` (`/api/dev/arm/<kg>`): baseline is 90% of the
injected actual, rounded to the display step. -/
def dev_arm (now actual : ℚ) (s : GameState) : GameState :=
  let baseline_display := round_to_step_nearest ((9/10) * actual) DISPLAY_STEP_KG
  { s with
    armed := true, phase := .TRAPPED, arming_actual_kg := some actual,
    baseline_display_kg := some baseline_display, display_kg := some baseline_display,
    smoothed_kg := some actual, last_raw_kg := some actual,
    arm_start := 0, drop_start := 0, restore_start := 0, updated := now }

/-- The operations that mutate the shared `a.py` state. -/
inductive AOp
  | reading (now actual : ℚ)
  | disarm (now : ℚ)
  | devArm (now actual : ℚ)

def apply (s : GameState) : AOp → GameState
  | .reading now actual => (process_reading now actual s).1
  | .disarm now => _reset_state now
  | .devArm now actual => dev_arm now actual s

def run (ops : List AOp) : GameState := ops.foldl apply initState

end APy

/-! ## A generic hold-timer automaton

Both state machines use the same debouncing pattern: a start timestamp with
"0.0 means unset"; while the qualifying condition holds the timestamp is set
at the first qualifying sample and then kept; a sample failing the condition
resets the timestamp to 0; the transition fires at a sample whose time is at
least the hold time after the start.  `tstep`, `tfire` and `tfinal` model the
pattern abstractly; simulation lemmas below relate them to the machines. -/

/-- One step of the hold-timer pattern on sample `(t, x)`: the new timestamp
and whether the transition fires at this sample. -/
def tstep (cond : ℚ → Bool) (hold bs t x : ℚ) : ℚ × Bool :=
  if cond x then
    let bs1 := if bs = 0 then t else bs
    (bs1, hold ≤ t - bs1)
  else (0, false)

/-- Index of the first sample at which the timer fires, if any. -/
def tfire (cond : ℚ → Bool) (hold bs : ℚ) : List (ℚ × ℚ) → Option ℕ
  | [] => none
  | p :: ss =>
      let r := tstep cond hold bs p.1 p.2
      if r.2 then some 0 else (tfire cond hold r.1 ss).map (· + 1)

/-- The timestamp after processing all samples (meaningful when no firing
interrupts the run). -/
def tfinal (cond : ℚ → Bool) (hold bs : ℚ) : List (ℚ × ℚ) → ℚ
  | [] => bs
  | p :: ss => tfinal cond hold (tstep cond hold bs p.1 p.2).1 ss

/-- Timestamp of the `k`-th sample. -/
def tms (ss : List (ℚ × ℚ)) (k : ℕ) : ℚ := (ss.getD k (0, 0)).1

/-- Reading of the `k`-th sample. -/
def rdg (ss : List (ℚ × ℚ)) (k : ℕ) : ℚ := (ss.getD k (0, 0)).2

/-- Sample times are strictly increasing, all beyond `t0`. -/
def TimesOK (t0 : ℚ) : List (ℚ × ℚ) → Prop
  | [] => True
  | p :: ss => t0 < p.1 ∧ TimesOK p.1 ss

/-- The condition holds on every sample with index in `[i, k]`. -/
def allCond (cond : ℚ → Bool) (ss : List (ℚ × ℚ)) (i k : ℕ) : Prop :=
  ∀ j, i ≤ j → j ≤ k → j < ss.length → cond (rdg ss j) = true

/-- A window witnessing a qualifying hold ending at sample `k`: the condition
holds continuously from sample `i` through `k`, and at least `hold` time has
elapsed between them. -/
def holdWin (cond : ℚ → Bool) (hold : ℚ) (ss : List (ℚ × ℚ)) (k : ℕ) : Prop :=
  ∃ i, i ≤ k ∧ allCond cond ss i k ∧ hold ≤ tms ss k - tms ss i

/-- Firing condition at sample `k`, also counting a pending run that had
already started at time `t0 ≠ 0` before the first listed sample. -/
def trigAt (cond : ℚ → Bool) (hold t0 : ℚ) (ss : List (ℚ × ℚ)) (k : ℕ) : Prop :=
  (t0 ≠ 0 ∧ allCond cond ss 0 k ∧ hold ≤ tms ss k - t0) ∨ holdWin cond hold ss k

theorem TimesOK_mono {t0 t1 : ℚ} {ss : List (ℚ × ℚ)} (h : t1 ≤ t0)
    (hok : TimesOK t0 ss) : TimesOK t1 ss := by
  cases ss with
  | nil => trivial
  | cons p ss => exact ⟨lt_of_le_of_lt h hok.1, hok.2⟩

theorem tms_cons_succ (p : ℚ × ℚ) (ss : List (ℚ × ℚ)) (k : ℕ) :
    tms (p :: ss) (k + 1) = tms ss k := rfl

theorem rdg_cons_succ (p : ℚ × ℚ) (ss : List (ℚ × ℚ)) (k : ℕ) :
    rdg (p :: ss) (k + 1) = rdg ss k := rfl

theorem allCond_cons_succ {cond : ℚ → Bool} {p : ℚ × ℚ} {ss : List (ℚ × ℚ)}
    {i k : ℕ} : allCond cond (p :: ss) (i + 1) (k + 1) ↔ allCond cond ss i k := by
  constructor
  · intro h j hij hjk hjl
    have := h (j + 1) (by omega) (by omega) (by simpa using Nat.succ_lt_succ hjl)
    simpa [rdg_cons_succ] using this
  · intro h j hij hjk hjl
    match j, hij with
    | j + 1, hij =>
        have := h j (by omega) (by omega) (by simpa using hjl)
        simpa [rdg_cons_succ] using this

theorem allCond_cons_zero {cond : ℚ → Bool} {p : ℚ × ℚ} {ss : List (ℚ × ℚ)}
    {k : ℕ} : allCond cond (p :: ss) 0 (k + 1) ↔
      (cond p.2 = true ∧ allCond cond ss 0 k) := by
  constructor
  · intro h
    refine ⟨h 0 (by omega) (by omega) (by simp), ?_⟩
    intro j hij hjk hjl
    have hj := h (j + 1) (by omega) (by omega) (by simp; omega)
    simpa [rdg_cons_succ] using hj
  · rintro ⟨hp, h⟩ j _ hjk hjl
    match j with
    | 0 => simpa [rdg] using hp
    | j + 1 =>
        have hj := h j (by omega) (by omega) (by simp at hjl; omega)
        simpa [rdg_cons_succ] using hj

theorem allCond_cons_zero_zero {cond : ℚ → Bool} {p : ℚ × ℚ} {ss : List (ℚ × ℚ)} :
    allCond cond (p :: ss) 0 0 ↔ cond p.2 = true := by
  constructor
  · intro h; simpa [rdg] using h 0 (by omega) (by omega) (by simp)
  · intro h j _ hjk _
    match j, hjk with
    | 0, _ => simpa [rdg] using h

theorem holdWin_zero_false {cond : ℚ → Bool} {hold : ℚ} (hpos : 0 < hold)
    (ss : List (ℚ × ℚ)) : ¬ holdWin cond hold ss 0 := by
  rintro ⟨i, hi, _, hh⟩
  have hi0 : i = 0 := by omega
  subst hi0
  simp only [sub_self] at hh
  linarith

/-- Decomposition of a window ending at `k+1` in a cons list. -/
theorem holdWin_cons_succ {cond : ℚ → Bool} {hold : ℚ} {p : ℚ × ℚ}
    {ss : List (ℚ × ℚ)} {k : ℕ} :
    holdWin cond hold (p :: ss) (k + 1) ↔
      ((allCond cond (p :: ss) 0 (k + 1) ∧ hold ≤ tms ss k - p.1) ∨
        holdWin cond hold ss k) := by
  constructor
  · rintro ⟨i, hik, hall, hh⟩
    match i with
    | 0 => exact Or.inl ⟨hall, by simpa [tms, tms_cons_succ] using hh⟩
    | i + 1 =>
        exact Or.inr ⟨i, by omega, allCond_cons_succ.mp hall,
          by simpa [tms_cons_succ] using hh⟩
  · rintro (⟨hall, hh⟩ | ⟨i, hik, hall, hh⟩)
    · exact ⟨0, by omega, hall, by simpa [tms, tms_cons_succ] using hh⟩
    · exact ⟨i + 1, by omega, allCond_cons_succ.mpr hall,
        by simpa [tms_cons_succ] using hh⟩

theorem map_succ_eq_some {o : Option ℕ} {k : ℕ} :
    o.map (· + 1) = some (k + 1) ↔ o = some k := by
  cases o <;> simp

theorem map_succ_ne_zero {o : Option ℕ} : o.map (· + 1) ≠ some 0 := by
  cases o <;> simp

/-- Transfer of the firing characterization across one processed sample. -/
theorem tfire_cons_shift {cond : ℚ → Bool} {hold t0 t1 : ℚ} {hd : ℚ × ℚ}
    {q : List (ℚ × ℚ)}
    (hfire : tfire cond hold t0 (hd :: q) = (tfire cond hold t1 q).map (· + 1))
    (htrig0 : ¬ trigAt cond hold t0 (hd :: q) 0)
    (hshift : ∀ m, trigAt cond hold t0 (hd :: q) (m + 1) ↔ trigAt cond hold t1 q m)
    (hih : ∀ k, tfire cond hold t1 q = some k ↔
      (k < q.length ∧ trigAt cond hold t1 q k ∧ ∀ j, j < k → ¬ trigAt cond hold t1 q j)) :
    ∀ k, tfire cond hold t0 (hd :: q) = some k ↔
      (k < (hd :: q).length ∧ trigAt cond hold t0 (hd :: q) k ∧
        ∀ j, j < k → ¬ trigAt cond hold t0 (hd :: q) j) := by
  intro k
  cases k with
  | zero =>
      rw [hfire]
      constructor
      · intro h; exact absurd h map_succ_ne_zero
      · rintro ⟨_, htr, _⟩; exact absurd htr htrig0
  | succ k =>
      rw [hfire, map_succ_eq_some, hih k]
      constructor
      · rintro ⟨hlen, htr, hfirst⟩
        refine ⟨by simp only [List.length_cons]; omega, (hshift k).mpr htr, ?_⟩
        intro j hj
        match j with
        | 0 => exact htrig0
        | j + 1 => exact fun hx => hfirst j (by omega) ((hshift j).mp hx)
      · rintro ⟨hlen, htr, hfirst⟩
        refine ⟨by simp only [List.length_cons] at hlen; omega, (hshift k).mp htr, ?_⟩
        intro j hj hx
        exact hfirst (j + 1) (by omega) ((hshift j).mpr hx)

/-- The hold-timer automaton fires at sample `k` exactly when `k` is the first
sample closing a continuously-qualifying window of length at least `hold`
(`t0` is the timestamp carried in at the start: `0` when unset, otherwise the
start of a run already pending). -/
theorem tfire_eq_some_iff {cond : ℚ → Bool} {hold : ℚ} (hpos : 0 < hold) :
    ∀ (ss : List (ℚ × ℚ)) (t0 : ℚ), 0 ≤ t0 → TimesOK t0 ss → ∀ k,
      (tfire cond hold t0 ss = some k ↔
        (k < ss.length ∧ trigAt cond hold t0 ss k ∧
          ∀ j, j < k → ¬ trigAt cond hold t0 ss j)) := by
  intro ss
  induction ss with
  | nil =>
      intro t0 _ _ k
      simp [tfire]
  | cons p ss ih =>
      intro t0 ht0 hok
      obtain ⟨t, x⟩ := p
      obtain ⟨htlt, hok'⟩ := hok
      have htpos : 0 < t := lt_of_le_of_lt ht0 htlt
      by_cases hc : cond x = true
      · -- qualifying sample
        by_cases h0 : t0 = 0
        · -- timer starts now; cannot fire at this very sample since hold > 0
          have hnf : ¬ (hold ≤ t - t) := by simp only [sub_self, not_le]; exact hpos
          have hstep : tstep cond hold t0 t x = (t, false) := by
            simp [tstep, hc, h0]
            linarith
          have hfire : tfire cond hold t0 ((t, x) :: ss) =
              (tfire cond hold t ss).map (· + 1) := by
            simp [tfire, hstep]
          have htrig0 : ¬ trigAt cond hold t0 ((t, x) :: ss) 0 := by
            rintro (⟨h1, _, _⟩ | hw)
            · exact h1 h0
            · exact holdWin_zero_false hpos _ hw
          have hshift : ∀ m, trigAt cond hold t0 ((t, x) :: ss) (m + 1) ↔
              trigAt cond hold t ss m := by
            intro m
            constructor
            · rintro (⟨h1, _, _⟩ | hw)
              · exact absurd h0 h1
              · rcases holdWin_cons_succ.mp hw with ⟨hall, hh⟩ | hw'
                · exact Or.inl ⟨ne_of_gt htpos, (allCond_cons_zero.mp hall).2,
                    by simpa [tms_cons_succ] using hh⟩
                · exact Or.inr hw'
            · rintro (⟨_, h2, h3⟩ | hw)
              · exact Or.inr (holdWin_cons_succ.mpr (Or.inl
                  ⟨allCond_cons_zero.mpr ⟨hc, h2⟩, h3⟩))
              · exact Or.inr (holdWin_cons_succ.mpr (Or.inr hw))
          exact tfire_cons_shift hfire htrig0 hshift
            (ih t (le_of_lt htpos) hok')
        · -- a run is already pending from t0 ≠ 0
          have ht0pos : 0 < t0 := lt_of_le_of_ne ht0 (Ne.symm h0)
          by_cases hf : hold ≤ t - t0
          · -- fires at the head sample
            have hstep : tstep cond hold t0 t x = (t0, true) := by
              simp [tstep, hc, h0, hf]
            have hfire0 : tfire cond hold t0 ((t, x) :: ss) = some 0 := by
              simp [tfire, hstep]
            have htrig0 : trigAt cond hold t0 ((t, x) :: ss) 0 :=
              Or.inl ⟨h0, allCond_cons_zero_zero.mpr hc, by simpa [tms] using hf⟩
            intro k
            cases k with
            | zero =>
                constructor
                · intro _
                  exact ⟨by simp, htrig0, fun j hj => absurd hj (by omega)⟩
                · intro _; exact hfire0
            | succ k =>
                constructor
                · intro h; rw [hfire0] at h; simp at h
                · rintro ⟨_, _, hfirst⟩
                  exact absurd htrig0 (hfirst 0 (by omega))
          · -- pending run continues, no fire yet
            have hstep : tstep cond hold t0 t x = (t0, false) := by
              simp [tstep, hc, h0, hf]
            have hfire : tfire cond hold t0 ((t, x) :: ss) =
                (tfire cond hold t0 ss).map (· + 1) := by
              simp [tfire, hstep]
            have htrig0 : ¬ trigAt cond hold t0 ((t, x) :: ss) 0 := by
              rintro (⟨_, _, h3⟩ | hw)
              · exact hf (by simpa [tms] using h3)
              · exact holdWin_zero_false hpos _ hw
            have hshift : ∀ m, trigAt cond hold t0 ((t, x) :: ss) (m + 1) ↔
                trigAt cond hold t0 ss m := by
              intro m
              constructor
              · rintro (⟨h1, h2, h3⟩ | hw)
                · exact Or.inl ⟨h1, (allCond_cons_zero.mp h2).2,
                    by simpa [tms_cons_succ] using h3⟩
                · rcases holdWin_cons_succ.mp hw with ⟨hall, hh⟩ | hw'
                  · refine Or.inl ⟨h0, (allCond_cons_zero.mp hall).2, ?_⟩
                    have : t0 < t := htlt
                    linarith
                  · exact Or.inr hw'
              · rintro (⟨h1, h2, h3⟩ | hw)
                · exact Or.inl ⟨h1, allCond_cons_zero.mpr ⟨hc, h2⟩,
                    by simpa [tms_cons_succ] using h3⟩
                · exact Or.inr (holdWin_cons_succ.mpr (Or.inr hw))
            exact tfire_cons_shift hfire htrig0 hshift
              (ih t0 ht0 (TimesOK_mono (le_of_lt htlt) hok'))
      · -- non-qualifying sample: timer resets to unset
        have hstep : tstep cond hold t0 t x = (0, false) := by
          simp [tstep, hc]
        have hfire : tfire cond hold t0 ((t, x) :: ss) =
            (tfire cond hold 0 ss).map (· + 1) := by
          simp [tfire, hstep]
        have htrig0 : ¬ trigAt cond hold t0 ((t, x) :: ss) 0 := by
          rintro (⟨_, h2, _⟩ | hw)
          · exact hc (allCond_cons_zero_zero.mp h2)
          · exact holdWin_zero_false hpos _ hw
        have hshift : ∀ m, trigAt cond hold t0 ((t, x) :: ss) (m + 1) ↔
            trigAt cond hold 0 ss m := by
          intro m
          constructor
          · rintro (⟨_, h2, _⟩ | hw)
            · exact absurd (allCond_cons_zero.mp h2).1 hc
            · rcases holdWin_cons_succ.mp hw with ⟨hall, _⟩ | hw'
              · exact absurd (allCond_cons_zero.mp hall).1 hc
              · exact Or.inr hw'
          · rintro (⟨h1, _, _⟩ | hw)
            · exact absurd rfl h1
            · exact Or.inr (holdWin_cons_succ.mpr (Or.inr hw))
        exact tfire_cons_shift hfire htrig0 hshift
          (ih 0 le_rfl (TimesOK_mono (le_of_lt htpos) hok'))

theorem allCond_cons_all {cond : ℚ → Bool} {p : ℚ × ℚ} {ss : List (ℚ × ℚ)}
    (hp : cond p.2 = true) (h : allCond cond ss 0 (ss.length - 1)) :
    allCond cond (p :: ss) 0 ((p :: ss).length - 1) := by
  intro j _ hjk hjl
  match j with
  | 0 => simpa [rdg] using hp
  | j + 1 =>
      have hjl' : j < ss.length := by simpa using hjl
      have hj := h j (by omega) (by omega) hjl'
      simpa [rdg_cons_succ] using hj

/-- After a run of samples, the timer is either unset, or still the carried-in
start `t0`, or the time of the first sample of the trailing run on which the
qualifying condition has held continuously. -/
theorem tfinal_char {cond : ℚ → Bool} {hold : ℚ} :
    ∀ (ss : List (ℚ × ℚ)) (t0 : ℚ), 0 ≤ t0 → TimesOK t0 ss →
      (tfinal cond hold t0 ss = t0 ∧ allCond cond ss 0 (ss.length - 1))
      ∨ tfinal cond hold t0 ss = 0
      ∨ (∃ i, i < ss.length ∧ tfinal cond hold t0 ss = tms ss i ∧
           allCond cond ss i (ss.length - 1) ∧
           ((i = 0 ∧ t0 = 0) ∨ (0 < i ∧ cond (rdg ss (i - 1)) = false))) := by
  intro ss
  induction ss with
  | nil =>
      intro t0 _ _
      exact Or.inl ⟨rfl, fun j _ _ hj => absurd hj (by simp)⟩
  | cons p ss ih =>
      intro t0 ht0 hok
      obtain ⟨t, x⟩ := p
      obtain ⟨htlt, hok'⟩ := hok
      have htpos : 0 < t := lt_of_le_of_lt ht0 htlt
      by_cases hc : cond x = true
      · -- qualifying sample: the timer is running afterwards
        have hbs1 : (tstep cond hold t0 t x).1 = if t0 = 0 then t else t0 := by
          simp [tstep, hc]
        have hfin : tfinal cond hold t0 ((t, x) :: ss) =
            tfinal cond hold (if t0 = 0 then t else t0) ss := by
          rw [tfinal, hbs1]
        have hbs1pos : 0 < (if t0 = 0 then t else t0 : ℚ) := by
          split
          · exact htpos
          · exact lt_of_le_of_ne ht0 (by tauto)
        have hokbs1 : TimesOK (if t0 = 0 then t else t0 : ℚ) ss := by
          refine TimesOK_mono ?_ hok'
          split
          · exact le_rfl
          · exact le_of_lt htlt
        rcases ih _ (le_of_lt hbs1pos) hokbs1 with ⟨h1, h2⟩ | h1 | ⟨i, hi, h1, h2, h3⟩
        · by_cases h0 : t0 = 0
          · refine Or.inr (Or.inr ⟨0, by simp, ?_, allCond_cons_all hc h2, Or.inl ⟨rfl, h0⟩⟩)
            rw [hfin, h1, if_pos h0]; rfl
          · refine Or.inl ⟨?_, allCond_cons_all hc h2⟩
            rw [hfin, h1, if_neg h0]
        · exact Or.inr (Or.inl (by rw [hfin, h1]))
        · rcases h3 with ⟨hi0, hbs0⟩ | ⟨hipos, hpred⟩
          · exact absurd hbs0 (ne_of_gt hbs1pos)
          · refine Or.inr (Or.inr ⟨i + 1, by simpa using Nat.succ_lt_succ hi, ?_, ?_, ?_⟩)
            · rw [hfin, h1, tms_cons_succ]
            · intro j hij hjk hjl
              simp only [List.length_cons, Nat.add_sub_cancel] at hjk
              match j, hij with
              | j + 1, hij =>
                  have hjl' : j < ss.length := by simpa using hjl
                  have hj := h2 j (by omega) (by omega) hjl'
                  simpa [rdg_cons_succ] using hj
            · refine Or.inr ⟨by omega, ?_⟩
              have : i - 1 + 1 = i := by omega
              match i, hipos with
              | i + 1, _ => simpa [rdg_cons_succ] using hpred
      · -- non-qualifying sample: the timer resets
        have hbs0 : (tstep cond hold t0 t x).1 = 0 := by
          simp [tstep, hc]
        have hfin : tfinal cond hold t0 ((t, x) :: ss) = tfinal cond hold 0 ss := by
          rw [tfinal, hbs0]
        have hok0 : TimesOK (0 : ℚ) ss := TimesOK_mono (le_of_lt htpos) hok'
        rcases ih 0 le_rfl hok0 with ⟨h1, _⟩ | h1 | ⟨i, hi, h1, h2, h3⟩
        · exact Or.inr (Or.inl (by rw [hfin, h1]))
        · exact Or.inr (Or.inl (by rw [hfin, h1]))
        · refine Or.inr (Or.inr ⟨i + 1, by simpa using Nat.succ_lt_succ hi, ?_, ?_, ?_⟩)
          · rw [hfin, h1, tms_cons_succ]
          · intro j hij hjk hjl
            simp only [List.length_cons, Nat.add_sub_cancel] at hjk
            match j, hij with
            | j + 1, hij =>
                have hjl' : j < ss.length := by simpa using hjl
                have hj := h2 j (by omega) (by omega) hjl'
                simpa [rdg_cons_succ] using hj
          · refine Or.inr ⟨by omega, ?_⟩
            match i with
            | 0 => simpa [rdg] using hc
            | i + 1 => simpa [rdg_cons_succ] using (h3.resolve_left (by omega)).2

/-! ## Relating the `scales_game.py` machine to the timer automaton -/

/-- Feed one `(time, smoothed)` sample to the `scales_game.py` machine: the
reader stores the smoothed value and its display rounding, then steps the
machine.  (Only the fields the state machine reads are updated here; the
bookkeeping fields `last_seen_kg`, `history`, `updated`, `last_ascii` do not
influence any transition.) -/
def feedSmoothed (s : GameState) (p : ℚ × ℚ) : GameState × List Ev :=
  step_state_machine_locked p.1
    { s with
      smoothed_kg := some p.2,
      display_kg := some (display_round_nearest p.2) }

/-- Run the machine over a list of samples, collecting the events in order. -/
def runSmoothed (s : GameState) : List (ℚ × ℚ) → GameState × List Ev
  | [] => (s, [])
  | p :: ss =>
      let r1 := feedSmoothed s p
      let r2 := runSmoothed r1.1 ss
      (r2.1, r1.2 ++ r2.2)

theorem runSmoothed_append (l1 l2 : List (ℚ × ℚ)) :
    ∀ s : GameState, runSmoothed s (l1 ++ l2) =
      ((runSmoothed (runSmoothed s l1).1 l2).1,
       (runSmoothed s l1).2 ++ (runSmoothed (runSmoothed s l1).1 l2).2) := by
  induction l1 with
  | nil => intro s; simp [runSmoothed]
  | cons p l1 ih => intro s; simp [runSmoothed, ih, List.append_assoc]

theorem tfire_cons (cond : ℚ → Bool) (hold bs : ℚ) (p : ℚ × ℚ)
    (ss : List (ℚ × ℚ)) :
    tfire cond hold bs (p :: ss) =
      (if (tstep cond hold bs p.1 p.2).2 then some 0
       else (tfire cond hold (tstep cond hold bs p.1 p.2).1 ss).map (· + 1)) := rfl

theorem tfinal_cons (cond : ℚ → Bool) (hold bs : ℚ) (p : ℚ × ℚ)
    (ss : List (ℚ × ℚ)) :
    tfinal cond hold bs (p :: ss) =
      tfinal cond hold (tstep cond hold bs p.1 p.2).1 ss := rfl

/-- Firing on a prefix is firing early on the whole list. -/
theorem tfire_take {cond : ℚ → Bool} {hold : ℚ} :
    ∀ (ss : List (ℚ × ℚ)) (bs : ℚ) (m k : ℕ),
      (tfire cond hold bs (ss.take m) = some k ↔
        tfire cond hold bs ss = some k ∧ k < m) := by
  intro ss
  induction ss with
  | nil => intro bs m k; simp [tfire]
  | cons p ss ih =>
      intro bs m k
      cases m with
      | zero => simp [tfire]
      | succ m =>
          rw [List.take_succ_cons, tfire_cons, tfire_cons]
          by_cases hr : (tstep cond hold bs p.1 p.2).2 = true
          · simp only [hr, if_true]
            constructor
            · rintro h; exact ⟨h, by cases h; omega⟩
            · rintro ⟨h, _⟩; exact h
          · simp only [Bool.not_eq_true] at hr
            simp only [hr, Bool.false_eq_true, if_false]
            cases k with
            | zero =>
                constructor
                · intro h; exact absurd h map_succ_ne_zero
                · rintro ⟨h, _⟩; exact absurd h map_succ_ne_zero
            | succ k =>
                rw [map_succ_eq_some, map_succ_eq_some, ih]
                constructor
                · rintro ⟨h1, h2⟩; exact ⟨h1, by omega⟩
                · rintro ⟨h1, h2⟩; exact ⟨h1, by omega⟩

/-- The armed-stable phase of the `scales_game.py` machine with thresholds
`dl`, `rl`. -/
def StableSt (s : GameState) (dl rl : ℚ) : Prop :=
  s.armed = true ∧ s.is_below = false ∧
  s.drop_limit_actual_kg = some dl ∧ s.restore_limit_actual_kg = some rl

/-- The drop qualifying condition: smoothed strictly below the drop limit. -/
def dropCond (dl : ℚ) : ℚ → Bool := fun v => v < dl

/-- The arming qualifying condition: smoothed at least the trigger. -/
def armCond : ℚ → Bool := fun v => MIN_TRIGGER_KG ≤ v

theorem feed_stable_notbelow {s : GameState} {dl rl : ℚ} (t x : ℚ)
    (h : StableSt s dl rl) (hx : ¬ (x < dl)) :
    feedSmoothed s (t, x) =
      ({ s with
          smoothed_kg := some x,
          display_kg := some (display_round_nearest x),
          below_start := 0 }, []) := by
  obtain ⟨ha, hib, hdl, hrl⟩ := h
  simp [feedSmoothed, step_state_machine_locked, ha, hib, hdl, hrl, hx]

theorem feed_stable_below {s : GameState} {dl rl : ℚ} (t x : ℚ)
    (h : StableSt s dl rl) (hx : x < dl) :
    feedSmoothed s (t, x) =
      (if DROP_HOLDDOWN_S ≤ t - (if s.below_start = 0 then t else s.below_start) then
        ({ s with
            smoothed_kg := some x,
            display_kg := some (display_round_nearest x),
            is_below := true, below_start := 0, above_limit_start := 0 }, [Ev.Drop])
       else
        ({ s with
            smoothed_kg := some x,
            display_kg := some (display_round_nearest x),
            below_start := if s.below_start = 0 then t else s.below_start }, [])) := by
  obtain ⟨ha, hib, hdl, hrl⟩ := h
  by_cases hbs : s.below_start = 0 <;>
    by_cases hf : DROP_HOLDDOWN_S ≤ t - (if s.below_start = 0 then t else s.below_start) <;>
    simp only [hbs, if_true, if_false, if_pos, if_neg] at hf ⊢ <;>
    simp [feedSmoothed, step_state_machine_locked, ha, hib, hdl, hrl, hx, hbs, hf]

/-- Simulation target, no-firing half: if the drop timer never fires, the run
emits nothing, stays armed-stable, and its drop timer equals the automaton
timer. -/
def SimNone (dl rl : ℚ) (s : GameState) (ss : List (ℚ × ℚ)) : Prop :=
  tfire (dropCond dl) DROP_HOLDDOWN_S s.below_start ss = none →
    (runSmoothed s ss).2 = [] ∧ StableSt (runSmoothed s ss).1 dl rl ∧
    (runSmoothed s ss).1.below_start =
      tfinal (dropCond dl) DROP_HOLDDOWN_S s.below_start ss

/-- Simulation target, firing half: if the automaton fires at `k`, the run is
silent before `k`, emits exactly one `Drop` at `k`, and is then disturbed with
both the drop and restore timers cleared. -/
def SimSome (dl rl : ℚ) (s : GameState) (ss : List (ℚ × ℚ)) : Prop :=
  ∀ k, tfire (dropCond dl) DROP_HOLDDOWN_S s.below_start ss = some k →
    (runSmoothed s (ss.take k)).2 = [] ∧
    (runSmoothed s (ss.take (k + 1))).2 = [Ev.Drop] ∧
    (runSmoothed s (ss.take (k + 1))).1.armed = true ∧
    (runSmoothed s (ss.take (k + 1))).1.is_below = true ∧
    (runSmoothed s (ss.take (k + 1))).1.below_start = 0 ∧
    (runSmoothed s (ss.take (k + 1))).1.above_limit_start = 0 ∧
    (runSmoothed s (ss.take (k + 1))).1.drop_limit_actual_kg = some dl ∧
    (runSmoothed s (ss.take (k + 1))).1.restore_limit_actual_kg = some rl

theorem stable_sim_cons {dl rl t x : ℚ} {s s1 : GameState} {ss : List (ℚ × ℚ)}
    (hfeed : feedSmoothed s (t, x) = (s1, []))
    (htstep : tstep (dropCond dl) DROP_HOLDDOWN_S s.below_start t x =
      (s1.below_start, false))
    (ihn : SimNone dl rl s1 ss) (ihs : SimSome dl rl s1 ss) :
    SimNone dl rl s ((t, x) :: ss) ∧ SimSome dl rl s ((t, x) :: ss) := by
  have hfire : tfire (dropCond dl) DROP_HOLDDOWN_S s.below_start ((t, x) :: ss) =
      (tfire (dropCond dl) DROP_HOLDDOWN_S s1.below_start ss).map (· + 1) := by
    rw [tfire_cons, htstep]
    simp
  have hrun : ∀ l, runSmoothed s ((t, x) :: l) =
      ((runSmoothed s1 l).1, (runSmoothed s1 l).2) := by
    intro l; simp [runSmoothed, hfeed]
  constructor
  · intro hnone
    rw [hfire] at hnone
    have h0 : tfire (dropCond dl) DROP_HOLDDOWN_S s1.below_start ss = none := by
      rcases ho : tfire (dropCond dl) DROP_HOLDDOWN_S s1.below_start ss with _ | j
      · rfl
      · rw [ho] at hnone; simp at hnone
    obtain ⟨e1, e2, e3⟩ := ihn h0
    refine ⟨?_, ?_, ?_⟩
    · rw [hrun ss]; exact e1
    · rw [hrun ss]; exact e2
    · rw [hrun ss, tfinal_cons, htstep]; exact e3
  · intro k hk
    rw [hfire] at hk
    cases k with
    | zero => exact absurd hk map_succ_ne_zero
    | succ k =>
        rw [map_succ_eq_some] at hk
        obtain ⟨e1, e2, e3, e4, e5, e6, e7, e8⟩ := ihs k hk
        rw [List.take_succ_cons, List.take_succ_cons, hrun, hrun]
        exact ⟨e1, e2, e3, e4, e5, e6, e7, e8⟩

/-- Simulation of the armed-stable phase by the drop hold-timer automaton. -/
theorem stable_sim {dl rl : ℚ} :
    ∀ (ss : List (ℚ × ℚ)) (s : GameState), StableSt s dl rl →
      SimNone dl rl s ss ∧ SimSome dl rl s ss := by
  intro ss
  induction ss with
  | nil =>
      intro s h
      constructor
      · intro _; exact ⟨rfl, h, rfl⟩
      · intro k hk; simp [tfire] at hk
  | cons p ss ih =>
      intro s h
      obtain ⟨t, x⟩ := p
      by_cases hx : x < dl
      · have hfeed := feed_stable_below t x h hx
        by_cases hf : DROP_HOLDDOWN_S ≤ t - (if s.below_start = 0 then t else s.below_start)
        · -- the drop fires at this sample
          rw [if_pos hf] at hfeed
          have hfire : tfire (dropCond dl) DROP_HOLDDOWN_S s.below_start
              ((t, x) :: ss) = some 0 := by
            rw [tfire_cons]
            simp [tstep, dropCond, hx, hf]
          constructor
          · intro hnone; rw [hfire] at hnone; cases hnone
          · intro k hk
            rw [hfire] at hk
            injection hk with hk0
            subst hk0
            refine ⟨by simp [runSmoothed], ?_⟩
            rw [List.take_succ_cons, List.take_zero]
            simp [runSmoothed, hfeed, h.1, h.2.2.1, h.2.2.2]
        · -- timer keeps running, no fire at this sample
          rw [if_neg hf] at hfeed
          have htstep : tstep (dropCond dl) DROP_HOLDDOWN_S s.below_start t x =
              (({ s with
                  smoothed_kg := some x,
                  display_kg := some (display_round_nearest x),
                  below_start := if s.below_start = 0 then t else s.below_start } :
                GameState).below_start, false) := by
            simp [tstep, dropCond, hx, hf]
          obtain ⟨ihn, ihs⟩ := ih
            ({ s with
                smoothed_kg := some x,
                display_kg := some (display_round_nearest x),
                below_start := if s.below_start = 0 then t else s.below_start })
            ⟨h.1, h.2.1, h.2.2.1, h.2.2.2⟩
          exact stable_sim_cons hfeed htstep ihn ihs
      · have hfeed := feed_stable_notbelow t x h hx
        have htstep : tstep (dropCond dl) DROP_HOLDDOWN_S s.below_start t x =
            (({ s with
                smoothed_kg := some x,
                display_kg := some (display_round_nearest x),
                below_start := 0 } : GameState).below_start, false) := by
          simp [tstep, dropCond, hx]
        obtain ⟨ihn, ihs⟩ := ih
          ({ s with
              smoothed_kg := some x,
              display_kg := some (display_round_nearest x),
              below_start := 0 })
          ⟨h.1, h.2.1, h.2.2.1, h.2.2.2⟩
        exact stable_sim_cons hfeed htstep ihn ihs

theorem feed_unarmed_under {s : GameState} (t x : ℚ) (h : s.armed = false)
    (hx : ¬ (MIN_TRIGGER_KG ≤ x)) :
    feedSmoothed s (t, x) =
      ({ s with
          smoothed_kg := some x,
          display_kg := some (display_round_nearest x),
          above_start := 0 }, []) := by
  simp [feedSmoothed, step_state_machine_locked, h, hx]

theorem feed_unarmed_over {s : GameState} (t x : ℚ) (h : s.armed = false)
    (hx : MIN_TRIGGER_KG ≤ x) :
    feedSmoothed s (t, x) =
      (if STABLE_SECONDS ≤ t - (if s.above_start = 0 then t else s.above_start) then
        ({ s with
            smoothed_kg := some x,
            display_kg := some (display_round_nearest x),
            above_start := if s.above_start = 0 then t else s.above_start,
            armed := true,
            arming_actual_kg := some x,
            capped_arm_actual_kg := some (min x CAP_KG),
            drop_limit_actual_kg := some (min x CAP_KG * DROP_FACTOR),
            restore_limit_actual_kg := some (min x CAP_KG * RESTORE_FACTOR),
            baseline_display_kg :=
              some (if CAP_KG < x then 100 else display_round_nearest x),
            is_below := false, below_start := 0, above_limit_start := 0 },
         [Ev.Trapped])
       else
        ({ s with
            smoothed_kg := some x,
            display_kg := some (display_round_nearest x),
            above_start := if s.above_start = 0 then t else s.above_start }, [])) := by
  by_cases hbs : s.above_start = 0 <;>
    by_cases hf : STABLE_SECONDS ≤ t - (if s.above_start = 0 then t else s.above_start) <;>
    simp only [hbs, if_true, if_false, if_pos, if_neg] at hf ⊢ <;>
    simp [feedSmoothed, step_state_machine_locked, h, hx, hbs, hf]

/-- Unarmed simulation target, no-firing half. -/
def ASimNone (s : GameState) (ss : List (ℚ × ℚ)) : Prop :=
  tfire armCond STABLE_SECONDS s.above_start ss = none →
    (runSmoothed s ss).2 = [] ∧ (runSmoothed s ss).1.armed = false ∧
    (runSmoothed s ss).1.above_start =
      tfinal armCond STABLE_SECONDS s.above_start ss

/-- Unarmed simulation target, firing half: arming at sample `k` emits exactly
one `Trapped` event and populates the session fields from the arming
reading. -/
def ASimSome (s : GameState) (ss : List (ℚ × ℚ)) : Prop :=
  ∀ k, tfire armCond STABLE_SECONDS s.above_start ss = some k →
    (runSmoothed s (ss.take k)).2 = [] ∧
    (runSmoothed s (ss.take (k + 1))).2 = [Ev.Trapped] ∧
    (runSmoothed s (ss.take (k + 1))).1.armed = true ∧
    (runSmoothed s (ss.take (k + 1))).1.is_below = false ∧
    (runSmoothed s (ss.take (k + 1))).1.below_start = 0 ∧
    (runSmoothed s (ss.take (k + 1))).1.above_limit_start = 0 ∧
    (runSmoothed s (ss.take (k + 1))).1.arming_actual_kg = some (rdg ss k) ∧
    (runSmoothed s (ss.take (k + 1))).1.capped_arm_actual_kg =
      some (min (rdg ss k) CAP_KG) ∧
    (runSmoothed s (ss.take (k + 1))).1.drop_limit_actual_kg =
      some (min (rdg ss k) CAP_KG * DROP_FACTOR) ∧
    (runSmoothed s (ss.take (k + 1))).1.restore_limit_actual_kg =
      some (min (rdg ss k) CAP_KG * RESTORE_FACTOR) ∧
    (runSmoothed s (ss.take (k + 1))).1.baseline_display_kg =
      some (if CAP_KG < rdg ss k then 100 else display_round_nearest (rdg ss k))

theorem unarmed_sim_cons {t x : ℚ} {s s1 : GameState} {ss : List (ℚ × ℚ)}
    (hfeed : feedSmoothed s (t, x) = (s1, []))
    (htstep : tstep armCond STABLE_SECONDS s.above_start t x =
      (s1.above_start, false))
    (ihn : ASimNone s1 ss) (ihs : ASimSome s1 ss) :
    ASimNone s ((t, x) :: ss) ∧ ASimSome s ((t, x) :: ss) := by
  have hfire : tfire armCond STABLE_SECONDS s.above_start ((t, x) :: ss) =
      (tfire armCond STABLE_SECONDS s1.above_start ss).map (· + 1) := by
    rw [tfire_cons, htstep]
    simp
  have hrun : ∀ l, runSmoothed s ((t, x) :: l) =
      ((runSmoothed s1 l).1, (runSmoothed s1 l).2) := by
    intro l; simp [runSmoothed, hfeed]
  constructor
  · intro hnone
    rw [hfire] at hnone
    have h0 : tfire armCond STABLE_SECONDS s1.above_start ss = none := by
      rcases ho : tfire armCond STABLE_SECONDS s1.above_start ss with _ | j
      · rfl
      · rw [ho] at hnone; simp at hnone
    obtain ⟨e1, e2, e3⟩ := ihn h0
    refine ⟨?_, ?_, ?_⟩
    · rw [hrun ss]; exact e1
    · rw [hrun ss]; exact e2
    · rw [hrun ss, tfinal_cons, htstep]; exact e3
  · intro k hk
    rw [hfire] at hk
    cases k with
    | zero => exact absurd hk map_succ_ne_zero
    | succ k =>
        rw [map_succ_eq_some] at hk
        obtain ⟨e1, e2, e3, e4, e5, e6, e7, e8, e9, e10, e11⟩ := ihs k hk
        rw [List.take_succ_cons, List.take_succ_cons, hrun, hrun]
        exact ⟨e1, e2, e3, e4, e5, e6, e7, e8, e9, e10, e11⟩

/-- Simulation of the unarmed phase by the arming hold-timer automaton. -/
theorem unarmed_sim :
    ∀ (ss : List (ℚ × ℚ)) (s : GameState), s.armed = false →
      ASimNone s ss ∧ ASimSome s ss := by
  intro ss
  induction ss with
  | nil =>
      intro s h
      constructor
      · intro _; exact ⟨rfl, h, rfl⟩
      · intro k hk; simp [tfire] at hk
  | cons p ss ih =>
      intro s h
      obtain ⟨t, x⟩ := p
      by_cases hx : MIN_TRIGGER_KG ≤ x
      · have hfeed := feed_unarmed_over t x h hx
        by_cases hf : STABLE_SECONDS ≤ t - (if s.above_start = 0 then t else s.above_start)
        · -- arming fires at this sample
          rw [if_pos hf] at hfeed
          have hfire : tfire armCond STABLE_SECONDS s.above_start
              ((t, x) :: ss) = some 0 := by
            rw [tfire_cons]
            simp [tstep, armCond, hx, hf]
          constructor
          · intro hnone; rw [hfire] at hnone; cases hnone
          · intro k hk
            rw [hfire] at hk
            injection hk with hk0
            subst hk0
            refine ⟨by simp [runSmoothed], ?_⟩
            rw [List.take_succ_cons, List.take_zero]
            simp [runSmoothed, hfeed, rdg]
        · -- timer keeps running, no fire at this sample
          rw [if_neg hf] at hfeed
          have htstep : tstep armCond STABLE_SECONDS s.above_start t x =
              (({ s with
                  smoothed_kg := some x,
                  display_kg := some (display_round_nearest x),
                  above_start := if s.above_start = 0 then t else s.above_start } :
                GameState).above_start, false) := by
            simp [tstep, armCond, hx, hf]
          obtain ⟨ihn, ihs⟩ := ih
            ({ s with
                smoothed_kg := some x,
                display_kg := some (display_round_nearest x),
                above_start := if s.above_start = 0 then t else s.above_start })
            h
          exact unarmed_sim_cons hfeed htstep ihn ihs
      · have hfeed := feed_unarmed_under t x h hx
        have htstep : tstep armCond STABLE_SECONDS s.above_start t x =
            (({ s with
                smoothed_kg := some x,
                display_kg := some (display_round_nearest x),
                above_start := 0 } : GameState).above_start, false) := by
          simp [tstep, armCond, hx]
        obtain ⟨ihn, ihs⟩ := ih
          ({ s with
              smoothed_kg := some x,
              display_kg := some (display_round_nearest x),
              above_start := 0 })
          h
        exact unarmed_sim_cons hfeed htstep ihn ihs

theorem trigAt_zero {cond : ℚ → Bool} {hold : ℚ} {ss : List (ℚ × ℚ)} {k : ℕ} :
    trigAt cond hold 0 ss k ↔ holdWin cond hold ss k := by
  constructor
  · rintro (⟨h1, _, _⟩ | hw)
    · exact absurd rfl h1
    · exact hw
  · exact Or.inr

/-- A silent run from an unarmed state means the arming timer never fired. -/
theorem unarmed_nofire_of_silent {s : GameState} {ss : List (ℚ × ℚ)}
    (h : s.armed = false) (he : (runSmoothed s ss).2 = []) :
    tfire armCond STABLE_SECONDS s.above_start ss = none := by
  rcases ho : tfire armCond STABLE_SECONDS s.above_start ss with _ | k
  · rfl
  · exfalso
    obtain ⟨_, e2, _⟩ := (unarmed_sim ss s h).2 k ho
    have hdec := (List.take_append_drop (k + 1) ss).symm
    rw [hdec, runSmoothed_append] at he
    obtain ⟨ha, _⟩ := List.append_eq_nil.mp he
    rw [e2] at ha
    cases ha

/-- A silent run from an armed-stable state means the drop timer never
fired. -/
theorem stable_nofire_of_silent {dl rl : ℚ} {s : GameState} {ss : List (ℚ × ℚ)}
    (h : StableSt s dl rl) (he : (runSmoothed s ss).2 = []) :
    tfire (dropCond dl) DROP_HOLDDOWN_S s.below_start ss = none := by
  rcases ho : tfire (dropCond dl) DROP_HOLDDOWN_S s.below_start ss with _ | k
  · rfl
  · exfalso
    obtain ⟨_, e2, _⟩ := (stable_sim ss s h).2 k ho
    have hdec := (List.take_append_drop (k + 1) ss).symm
    rw [hdec, runSmoothed_append] at he
    obtain ⟨ha, _⟩ := List.append_eq_nil.mp he
    rw [e2] at ha
    cases ha

/-- Conversely, the observed one-`Drop` trace pattern pins down the firing
index of the drop timer. -/
theorem stable_fire_of_events {dl rl : ℚ} {s : GameState} {ss : List (ℚ × ℚ)}
    {k : ℕ} (h : StableSt s dl rl)
    (he1 : (runSmoothed s (ss.take (k + 1))).2 = [Ev.Drop])
    (he2 : (runSmoothed s (ss.take k)).2 = []) :
    tfire (dropCond dl) DROP_HOLDDOWN_S s.below_start ss = some k := by
  rcases ho : tfire (dropCond dl) DROP_HOLDDOWN_S s.below_start ss with _ | j
  · exfalso
    have hp : tfire (dropCond dl) DROP_HOLDDOWN_S s.below_start (ss.take (k + 1)) = none := by
      rcases hq : tfire (dropCond dl) DROP_HOLDDOWN_S s.below_start (ss.take (k + 1)) with _ | j
      · rfl
      · have hj := (tfire_take ss s.below_start (k + 1) j).mp hq
        rw [ho] at hj
        exact absurd hj.1 (by simp)
    obtain ⟨e1, _, _⟩ := (stable_sim (ss.take (k + 1)) s h).1 hp
    rw [he1] at e1
    cases e1
  · by_cases hjk : j = k
    · rw [hjk]
    · exfalso
      rcases Nat.lt_or_ge j k with hlt | hge
      · -- the drop would already be visible inside the silent prefix
        have hfp : tfire (dropCond dl) DROP_HOLDDOWN_S s.below_start (ss.take k) = some j :=
          (tfire_take ss s.below_start k j).mpr ⟨ho, hlt⟩
        obtain ⟨_, e2', _⟩ := (stable_sim (ss.take k) s h).2 j hfp
        have hdec := (List.take_append_drop (j + 1) (ss.take k)).symm
        rw [hdec, runSmoothed_append] at he2
        obtain ⟨ha, _⟩ := List.append_eq_nil.mp he2
        rw [e2'] at ha
        cases ha
      · -- the machine would still be silent at the step that showed a Drop
        have hklt : k < j := by omega
        have hfp : tfire (dropCond dl) DROP_HOLDDOWN_S s.below_start (ss.take (k + 1)) = none := by
          rcases hq : tfire (dropCond dl) DROP_HOLDDOWN_S s.below_start (ss.take (k + 1)) with _ | i
          · rfl
          · have hi := (tfire_take ss s.below_start (k + 1) i).mp hq
            rw [ho] at hi
            have hij : i = j := (Option.some.inj hi.1).symm
            have hik := hi.2
            omega
        obtain ⟨e1, _, _⟩ := (stable_sim (ss.take (k + 1)) s h).1 hfp
        rw [he1] at e1
        cases e1

/-- The armed-disturbed phase of the `scales_game.py` machine. -/
def DisturbedSt (s : GameState) (dl rl : ℚ) : Prop :=
  s.armed = true ∧ s.is_below = true ∧
  s.drop_limit_actual_kg = some dl ∧ s.restore_limit_actual_kg = some rl

theorem feed_disturbed_under {s : GameState} {dl rl : ℚ} (t x : ℚ)
    (h : DisturbedSt s dl rl) (hx : ¬ (rl ≤ x)) :
    feedSmoothed s (t, x) =
      ({ s with
          smoothed_kg := some x,
          display_kg := some (display_round_nearest x),
          above_limit_start := 0 }, []) := by
  obtain ⟨ha, hib, hdl, hrl⟩ := h
  simp [feedSmoothed, step_state_machine_locked, ha, hib, hdl, hrl, hx]

theorem feed_disturbed_over {s : GameState} {dl rl : ℚ} (t x : ℚ)
    (h : DisturbedSt s dl rl) (hx : rl ≤ x) :
    feedSmoothed s (t, x) =
      (if RESTORE_HOLDDOWN_S ≤ t - (if s.above_limit_start = 0 then t else s.above_limit_start) then
        ({ s with
            smoothed_kg := some x,
            display_kg := some (display_round_nearest x),
            is_below := false, below_start := 0, above_limit_start := 0 }, [Ev.Restore])
       else
        ({ s with
            smoothed_kg := some x,
            display_kg := some (display_round_nearest x),
            above_limit_start := if s.above_limit_start = 0 then t else s.above_limit_start },
         [])) := by
  obtain ⟨ha, hib, hdl, hrl⟩ := h
  by_cases hbs : s.above_limit_start = 0 <;>
    by_cases hf : RESTORE_HOLDDOWN_S ≤ t - (if s.above_limit_start = 0 then t else s.above_limit_start) <;>
    simp only [hbs, if_true, if_false, if_pos, if_neg] at hf ⊢ <;>
    simp [feedSmoothed, step_state_machine_locked, ha, hib, hdl, hrl, hx, hbs, hf]

/-! ## Field-preservation and invariant lemmas -/

theorem step_smoothed_eq (now : ℚ) (s : GameState) :
    (step_state_machine_locked now s).1.smoothed_kg = s.smoothed_kg := by
  unfold step_state_machine_locked
  repeat' (first | split | dsimp only [])

theorem APy.apy_step_smoothed_eq (now : ℚ) (s : APy.GameState) :
    (APy.step_state_machine_locked now s).1.smoothed_kg = s.smoothed_kg := by
  unfold APy.step_state_machine_locked
  repeat' (first | split | dsimp only [])

/-- The session fields populated at arming stay populated while armed. -/
theorem step_session_fields (now : ℚ) (s : GameState)
    (h : s.armed = true →
      s.baseline_display_kg.isSome ∧ s.capped_arm_actual_kg.isSome ∧
      s.drop_limit_actual_kg.isSome ∧ s.restore_limit_actual_kg.isSome) :
    (step_state_machine_locked now s).1.armed = true →
      (step_state_machine_locked now s).1.baseline_display_kg.isSome ∧
      (step_state_machine_locked now s).1.capped_arm_actual_kg.isSome ∧
      (step_state_machine_locked now s).1.drop_limit_actual_kg.isSome ∧
      (step_state_machine_locked now s).1.restore_limit_actual_kg.isSome := by
  unfold step_state_machine_locked
  repeat' (first | split | dsimp only [])
  all_goals intro ha
  all_goals first
    | exact h ha
    | simp

theorem APy.apy_step_session_fields (now : ℚ) (s : APy.GameState)
    (h : s.armed = true → s.baseline_display_kg.isSome) :
    (APy.step_state_machine_locked now s).1.armed = true →
      (APy.step_state_machine_locked now s).1.baseline_display_kg.isSome := by
  unfold APy.step_state_machine_locked
  repeat' (first | split | dsimp only [])
  all_goals intro ha
  all_goals first
    | exact h ha
    | simp

theorem sg_apply_session (s : GameState) (o : SOp)
    (h : s.armed = true →
      s.baseline_display_kg.isSome ∧ s.capped_arm_actual_kg.isSome ∧
      s.drop_limit_actual_kg.isSome ∧ s.restore_limit_actual_kg.isSome) :
    (sg_apply s o).armed = true →
      (sg_apply s o).baseline_display_kg.isSome ∧
      (sg_apply s o).capped_arm_actual_kg.isSome ∧
      (sg_apply s o).drop_limit_actual_kg.isSome ∧
      (sg_apply s o).restore_limit_actual_kg.isSome := by
  cases o with
  | reading now actual => exact step_session_fields now _ h
  | disarm now => intro ha; simp [sg_apply, _reset_state] at ha
  | devArm now actual => intro _; simp [sg_apply, dev_arm]

theorem APy.apply_session (s : APy.GameState) (o : APy.AOp)
    (h : s.armed = true → s.baseline_display_kg.isSome) :
    (APy.apply s o).armed = true → (APy.apply s o).baseline_display_kg.isSome := by
  cases o with
  | reading now actual => exact APy.apy_step_session_fields now _ h
  | disarm now => intro ha; simp [APy.apply, APy._reset_state] at ha
  | devArm now actual => intro _; simp [APy.apply, APy.dev_arm]

/-- The `/api/disarm` (and `/api/reset`, `/api/dev/disarm`) handler of
`scales_game.py`: resets unconditionally and acknowledges with success; no
Companion call occurs on this path, hence no event is emitted. -/
def api_disarm (now : ℚ) (s : GameState) : GameState × Bool × List Ev :=
  (_reset_state now, true, [])

/-- The `/api/disarm` handler of `a.py`. -/
def APy.api_disarm (now : ℚ) (s : APy.GameState) :
    APy.GameState × Bool × List Ev :=
  (APy._reset_state now, true, [])

/-! ## Remaining helper lemmas for the claims -/

/-- The carried-over decoder buffer never exceeds the 32-byte retention
window. -/
theorem decode_resid_le (b : List ℕ) :
    (decode_weight_from_stream b).2.length ≤ 32 := by
  generalize hn : b.length = n
  induction n using Nat.strong_induction_on generalizing b with
  | _ n ih =>
  rcases hidx : idxEq b with _ | idx
  · rw [decode_of_none hidx]
    exact keepTail_length_le b
  · by_cases hle : idx + 8 ≤ b.length
    · rw [decode_of_full hidx hle]
      have hlt : (b.drop (idx + 8)).length < n := by
        simp only [List.length_drop]; omega
      have hih := ih _ hlt (b.drop (idx + 8)) rfl
      rcases parseWeight ((b.drop (idx + 1)).take 7) with _ | w <;> simpa using hih
    · rw [decode_of_incomplete hidx hle]
      have hlt := idxEq_some_lt hidx
      simp only [List.length_drop]
      omega

theorem findallWeights_of_no_eq :
    ∀ l : List ℕ, idxEq l = none → findallWeights l = [] := by
  intro l
  induction l with
  | nil => intro _; simp [findallWeights]
  | cons c rest ih =>
      intro h
      rw [idxEq_eq_none_iff] at h
      have hc : c ≠ 61 := h c (by simp)
      have hrest : idxEq rest = none := by
        rw [idxEq_eq_none_iff]
        exact fun b hb => h b (List.mem_cons_of_mem c hb)
      rw [findallWeights, if_neg hc]
      exact ih hrest

/-! ## The claims -/

/-- C2: the spec claims `round_to_step(x, step)` rounds half away from zero,
with the tie 12.25 at step 0.5 yielding 12.5.  This is false for the code:
`round_to_step_nearest` uses Python 3 `round`, which rounds half to even, so
`round_to_step_nearest(12.25, 0.5) = 12.0`, not 12.5. -/
theorem c2_counterexample :
    round_to_step_nearest (49/4) (1/2) = 12 ∧ (12 : ℚ) ≠ 25/2 := by
  constructor
  · with_unfolding_all decide
  · with_unfolding_all decide

/-- C2 (amended): `round_to_step(x, step)` rounds to the nearest multiple of
`step` with ties to even (Python 3 banker's rounding): for step = 0.5,
12.24 yields 12.0, 12.26 yields 12.5, and the tie 12.25 yields 12.0. -/
theorem c2_round_to_step :
    round_to_step_nearest (1224/100) (1/2) = 12 ∧
    round_to_step_nearest (1226/100) (1/2) = 25/2 ∧
    round_to_step_nearest (49/4) (1/2) = 12 := by
  refine ⟨by with_unfolding_all decide, by with_unfolding_all decide,
    by with_unfolding_all decide⟩

/-- C3: arming at smoothed 200 with CAP = 112 and factors 0.9 yields a capped
arming reading of 112, drop and restore thresholds of 100.8, and a displayed
baseline of 100.0 (per the cap-to-100 display rule for arming readings above
112), and emits the arming event. -/
theorem c3_threshold_capping (s : GameState) (now d : ℚ)
    (h1 : s.armed = false) (h2 : s.smoothed_kg = some 200)
    (h3 : s.display_kg = some d) (h4 : s.above_start ≠ 0)
    (h5 : STABLE_SECONDS ≤ now - s.above_start) :
    (step_state_machine_locked now s).1.capped_arm_actual_kg = some 112 ∧
    (step_state_machine_locked now s).1.drop_limit_actual_kg = some (504/5) ∧
    (step_state_machine_locked now s).1.restore_limit_actual_kg = some (504/5) ∧
    (step_state_machine_locked now s).1.baseline_display_kg = some 100 ∧
    (step_state_machine_locked now s).1.armed = true ∧
    (step_state_machine_locked now s).2 = [Ev.Trapped] := by
  unfold step_state_machine_locked
  rw [h2, h3]
  have htrig : MIN_TRIGGER_KG ≤ (200 : ℚ) := by norm_num [MIN_TRIGGER_KG]
  have hcap : CAP_KG < (200 : ℚ) := by norm_num [CAP_KG]
  have hmin : min (200 : ℚ) CAP_KG = 112 := by norm_num [CAP_KG]
  have hdrop : min (200 : ℚ) CAP_KG * DROP_FACTOR = 504/5 := by
    rw [hmin]; norm_num [DROP_FACTOR]
  have hrest : min (200 : ℚ) CAP_KG * RESTORE_FACTOR = 504/5 := by
    rw [hmin]; norm_num [RESTORE_FACTOR]
  simp [h1, h4, h5, htrig, hcap, hmin, hdrop, hrest]
  refine ⟨?_, ?_⟩ <;> norm_num [DROP_FACTOR, RESTORE_FACTOR]

/-- A concrete pre-arming state used to instantiate C3. -/
def armingProbe : GameState :=
  { initState with
      smoothed_kg := some 200,
      display_kg := some 100,
      above_start := 1 }

theorem c3_witness :
    (step_state_machine_locked 4 armingProbe).1.capped_arm_actual_kg = some 112 ∧
    (step_state_machine_locked 4 armingProbe).1.drop_limit_actual_kg = some (504/5) ∧
    (step_state_machine_locked 4 armingProbe).1.restore_limit_actual_kg = some (504/5) ∧
    (step_state_machine_locked 4 armingProbe).1.baseline_display_kg = some 100 ∧
    (step_state_machine_locked 4 armingProbe).1.armed = true ∧
    (step_state_machine_locked 4 armingProbe).2 = [Ev.Trapped] :=
  c3_threshold_capping armingProbe 4 100 rfl rfl rfl (by norm_num [armingProbe])
    (by norm_num [armingProbe, STABLE_SECONDS])

/-- C4: the spec claims chunk boundaries never change the decoded readings.
This fails for the regex reader of `scales_game.py`: it rescans the retained
buffer on every chunk, so the frame `=1000000` fed as two chunks produces the
reading 1.0 twice, while fed at once it produces it once. -/
theorem c4_counterexample :
    sg_read_run [] [[61, 49, 48, 48], [48, 48, 48, 48]] ≠
      sg_read_run [] [[61, 49, 48, 48, 48, 48, 48, 48]] := by
  with_unfolding_all decide

/-- C4 (amended): for the fixed-width frame decoder of `a.py`
(`decode_weight_from_stream`), feeding any chunk partition of a byte sequence
one call at a time yields exactly the reading sequence of a single call on
the concatenation; the regex reader of `scales_game.py` does not have this
property (see the counterexample). -/
theorem c4_decoder_chunk_invariance (cs : List (List ℕ)) :
    (decodeChunked [] cs).1 = (decode_weight_from_stream cs.flatten).1 := by
  have hn : idxEq ([] : List ℕ) = none := rfl
  have h0 : decode_weight_from_stream [] = ([], []) := by
    rw [decode_of_none hn]
    simp
  have h := decodeChunked_eq cs [] h0
  rw [h, List.nil_append]

/-- C5: the spec claims a buffer with no sentinel, or only an unterminated
trailing frame, yields zero readings.  The regex reader of `scales_game.py`
violates the second half: the unterminated frame `=000` already yields the
reading 0.0. -/
theorem c5_counterexample :
    (sg_read_chunk [] [61, 48, 48, 48]).2 ≠ [] := by
  with_unfolding_all decide

/-- C5 (amended): for the fixed-width decoder of `a.py`: a buffer with no
sentinel, or one whose only sentinel starts an unterminated trailing frame,
yields zero readings, and the carried-over buffer never exceeds the 32-byte
retention window, across arbitrarily many feeds.  For the regex reader of
`scales_game.py`: the buffer stays bounded by 256 characters and a
sentinel-free buffer yields zero readings, but an unterminated trailing
frame may already yield a reading (see the counterexample). -/
theorem c5_decoder_robustness :
    (∀ b : List ℕ, idxEq b = none → (decode_weight_from_stream b).1 = []) ∧
    (∀ p rest : List ℕ, idxEq p = none → rest.length < 7 →
      (decode_weight_from_stream (p ++ 61 :: rest)).1 = []) ∧
    (∀ b : List ℕ, (decode_weight_from_stream b).2.length ≤ 32) ∧
    (∀ (cs : List (List ℕ)) (buf : List ℕ), buf.length ≤ 32 →
      (decodeChunked buf cs).2.length ≤ 32) ∧
    (∀ b chunk : List ℕ, (sg_read_chunk b chunk).1.length ≤ 256) ∧
    (∀ b chunk : List ℕ, idxEq (b ++ chunk) = none →
      (sg_read_chunk b chunk).2 = []) := by
  refine ⟨?_, ?_, decode_resid_le, ?_, ?_, ?_⟩
  · intro b h
    rw [decode_of_none h]
  · intro p rest hp hlen
    have hd : idxEq (61 :: rest) = some 0 := by simp [idxEq]
    have hidx : idxEq (p ++ 61 :: rest) = some p.length := by
      rw [idxEq_append_of_none _ hp, hd]; simp
    have hgt : ¬ (p.length + 8 ≤ (p ++ 61 :: rest).length) := by
      simp only [List.length_append, List.length_cons]
      omega
    rw [decode_of_incomplete hidx hgt]
  · intro cs
    induction cs with
    | nil => intro buf h; exact h
    | cons c cs ih =>
        intro buf h
        exact ih _ (decode_resid_le (buf ++ c))
  · intro b chunk
    simp only [sg_read_chunk]
    split
    · simp only [List.length_drop]
      omega
    · omega
  · intro b chunk h
    simp only [sg_read_chunk, findallWeights_of_no_eq _ h]
    rfl

theorem c5_witness :
    (decode_weight_from_stream [1, 2, 3]).1 = [] ∧
    (decode_weight_from_stream ([70] ++ 61 :: [49, 50])).1 = [] ∧
    (decodeChunked [] [[61], [49]]).2.length ≤ 32 ∧
    (sg_read_chunk [65] [66, 67]).2 = [] :=
  ⟨c5_decoder_robustness.1 [1, 2, 3] (by decide),
   c5_decoder_robustness.2.1 [70] [49, 50] (by decide) (by decide),
   c5_decoder_robustness.2.2.2.1 [[61], [49]] [] (by decide),
   c5_decoder_robustness.2.2.2.2.2 [65] [66, 67] (by decide)⟩

/-- C7: calling disarm twice in a row, from any state, acknowledges success
both times, collapses to a single reset (all session-derived fields
discarded, every hold timer unset, unarmed/WAITING), and emits no event — in
both script variants. -/
theorem c7_disarm_idempotent (s : GameState) (w : APy.GameState) (n1 n2 : ℚ) :
    (api_disarm n2 (api_disarm n1 s).1).1 = (api_disarm n2 s).1 ∧
    (APy.api_disarm n2 (APy.api_disarm n1 w).1).1 = (APy.api_disarm n2 w).1 ∧
    (api_disarm n1 s).2 = (true, []) ∧
    (api_disarm n2 (api_disarm n1 s).1).2 = (true, []) ∧
    (APy.api_disarm n1 w).2 = (true, []) ∧
    (APy.api_disarm n2 (APy.api_disarm n1 w).1).2 = (true, []) ∧
    (api_disarm n2 (api_disarm n1 s).1).1 =
      { armed := false, last_seen_kg := none, smoothed_kg := none,
        display_kg := none, baseline_display_kg := none,
        arming_actual_kg := none, capped_arm_actual_kg := none,
        drop_limit_actual_kg := none, restore_limit_actual_kg := none,
        is_below := false, above_start := 0, below_start := 0,
        above_limit_start := 0, updated := n2, last_ascii := [],
        history := [] } ∧
    (APy.api_disarm n2 (APy.api_disarm n1 w).1).1.phase = APy.Phase.WAITING ∧
    (APy.api_disarm n2 (APy.api_disarm n1 w).1).1.armed = false ∧
    (APy.api_disarm n2 (APy.api_disarm n1 w).1).1.arm_start = 0 ∧
    (APy.api_disarm n2 (APy.api_disarm n1 w).1).1.drop_start = 0 ∧
    (APy.api_disarm n2 (APy.api_disarm n1 w).1).1.restore_start = 0 ∧
    (APy.api_disarm n2 (APy.api_disarm n1 w).1).1.baseline_display_kg = none :=
  ⟨rfl, rfl, rfl, rfl, rfl, rfl, rfl, rfl, rfl, rfl, rfl, rfl, rfl⟩

/-- C8: the first reading pushed into the smoother comes back unchanged, for
both strategies: the EMA of `a.py` (first sample passes through) and the
trailing median of `scales_game.py` (median of a one-element window). -/
theorem c8_smoother_first_reading :
    (∀ (s : APy.GameState) (now kg : ℚ), s.smoothed_kg = none →
      (APy.process_reading now kg s).1.smoothed_kg = some kg) ∧
    (∀ (w : GameState) (now kg : ℚ) (raw : List ℕ), w.history = [] →
      (sg_process_reading now kg raw w).1.smoothed_kg = some kg) := by
  constructor
  · intro s now kg h
    unfold APy.process_reading
    rw [APy.apy_step_smoothed_eq]
    simp [h]
  · intro w now kg raw h
    unfold sg_process_reading
    rw [step_smoothed_eq]
    simp [h, SMOOTH_WINDOW, median, sortQ, insertSorted]

theorem c8_witness :
    (APy.process_reading 1 42 APy.initState).1.smoothed_kg = some 42 ∧
    (sg_process_reading 1 42 [] initState).1.smoothed_kg = some 42 :=
  ⟨c8_smoother_first_reading.1 APy.initState 1 42 rfl,
   c8_smoother_first_reading.2 initState 1 42 [] rfl⟩

/-- C9: a complete frame whose 7-byte payload does not parse as a number
after reversal is silently skipped: it contributes no reading, raises no
error, and decoding continues exactly on the remaining buffer. -/
theorem c9_malformed_frame_skipped (p seg rest : List ℕ)
    (hp : idxEq p = none) (hlen : seg.length = 7)
    (hbad : parseWeight seg = none) :
    decode_weight_from_stream (p ++ 61 :: (seg ++ rest)) =
      decode_weight_from_stream rest := by
  have hd : idxEq (61 :: (seg ++ rest)) = some 0 := by simp [idxEq]
  have hidx : idxEq (p ++ 61 :: (seg ++ rest)) = some p.length := by
    rw [idxEq_append_of_none _ hp, hd]; simp
  have hle : p.length + 8 ≤ (p ++ 61 :: (seg ++ rest)).length := by
    simp only [List.length_append, List.length_cons, hlen]
    omega
  rw [decode_of_full hidx hle]
  have hdrop1 : (p ++ 61 :: (seg ++ rest)).drop (p.length + 1) = seg ++ rest := by
    rw [List.drop_append 1, List.drop_succ_cons, List.drop_zero]
  have hseg : ((p ++ 61 :: (seg ++ rest)).drop (p.length + 1)).take 7 = seg := by
    rw [hdrop1, ← hlen, List.take_left]
  have hdrop8 : (p ++ 61 :: (seg ++ rest)).drop (p.length + 8) = rest := by
    rw [List.drop_append 8, List.drop_succ_cons, ← hlen, List.drop_left]
  rw [hseg, hbad, hdrop8]

theorem c9_witness :
    decode_weight_from_stream
      ([32] ++ 61 :: ([97, 98, 99, 100, 101, 102, 103] ++ [])) =
      decode_weight_from_stream [] :=
  c9_malformed_frame_skipped [32] [97, 98, 99, 100, 101, 102, 103] []
    (by decide) (by decide) (by with_unfolding_all decide)

/-- C10: in every state reachable by reader updates, disarms and dev-arms, an
armed machine has its session-derived fields populated: the displayed
baseline in both variants, and additionally the capped arming reading and
both detection thresholds in the threshold-based `scales_game.py` variant;
they become `none` only together with `armed` becoming false (the invariant
holds in all reachable states). -/
theorem c10_armed_session_fields (ops : List SOp) (aops : List APy.AOp) :
    ((sg_run ops).armed = true →
      (sg_run ops).baseline_display_kg.isSome ∧
      (sg_run ops).capped_arm_actual_kg.isSome ∧
      (sg_run ops).drop_limit_actual_kg.isSome ∧
      (sg_run ops).restore_limit_actual_kg.isSome) ∧
    ((APy.run aops).armed = true → (APy.run aops).baseline_display_kg.isSome) := by
  constructor
  · have key : ∀ (l : List SOp) (s : GameState),
        (s.armed = true →
          s.baseline_display_kg.isSome ∧ s.capped_arm_actual_kg.isSome ∧
          s.drop_limit_actual_kg.isSome ∧ s.restore_limit_actual_kg.isSome) →
        ((l.foldl sg_apply s).armed = true →
          (l.foldl sg_apply s).baseline_display_kg.isSome ∧
          (l.foldl sg_apply s).capped_arm_actual_kg.isSome ∧
          (l.foldl sg_apply s).drop_limit_actual_kg.isSome ∧
          (l.foldl sg_apply s).restore_limit_actual_kg.isSome) := by
      intro l
      induction l with
      | nil => exact fun s h => h
      | cons o l ih => exact fun s h => ih _ (sg_apply_session s o h)
    exact key ops initState (fun h => absurd h (by decide))
  · have key : ∀ (l : List APy.AOp) (s : APy.GameState),
        (s.armed = true → s.baseline_display_kg.isSome) →
        ((l.foldl APy.apply s).armed = true →
          (l.foldl APy.apply s).baseline_display_kg.isSome) := by
      intro l
      induction l with
      | nil => exact fun s h => h
      | cons o l ih => exact fun s h => ih _ (APy.apply_session s o h)
    exact key aops APy.initState (fun h => absurd h (by decide))

theorem c10_witness :
    ((sg_run [SOp.devArm 1 50]).baseline_display_kg.isSome ∧
     (sg_run [SOp.devArm 1 50]).capped_arm_actual_kg.isSome ∧
     (sg_run [SOp.devArm 1 50]).drop_limit_actual_kg.isSome ∧
     (sg_run [SOp.devArm 1 50]).restore_limit_actual_kg.isSome) ∧
    (APy.run [APy.AOp.devArm 1 50]).baseline_display_kg.isSome :=
  ⟨(c10_armed_session_fields [SOp.devArm 1 50] [APy.AOp.devArm 1 50]).1
      (by with_unfolding_all decide),
   (c10_armed_session_fields [SOp.devArm 1 50] [APy.AOp.devArm 1 50]).2
      (by with_unfolding_all decide)⟩

/-- C1: in the armed-stable phase of `scales_game.py`, the machine transitions
to the disturbed phase exactly at the first sample closing a window in which
the smoothed reading stayed strictly below the drop threshold continuously
for at least `DROP_HOLDDOWN_S`; any single sample at or above the threshold
resets the drop timer to unset; the threshold is derived at arming as
`min(arming_reading, 112) * 0.9`; and the transition clears the drop and
restore hold timers and emits exactly one `Drop` event. -/
theorem c1_drop_transition :
    (∀ (s : GameState) (now actual d : ℚ),
       s.armed = false → s.smoothed_kg = some actual → s.display_kg = some d →
       MIN_TRIGGER_KG ≤ actual → s.above_start ≠ 0 →
       STABLE_SECONDS ≤ now - s.above_start →
       (step_state_machine_locked now s).1.drop_limit_actual_kg =
         some (min actual CAP_KG * DROP_FACTOR)) ∧
    (∀ (dl rl t x : ℚ) (s : GameState), StableSt s dl rl → ¬ (x < dl) →
       (feedSmoothed s (t, x)).1.below_start = 0 ∧
       (feedSmoothed s (t, x)).2 = []) ∧
    (∀ (dl rl : ℚ) (s : GameState) (ss : List (ℚ × ℚ)),
       StableSt s dl rl → s.below_start = 0 → TimesOK 0 ss →
       ∀ k, k < ss.length →
         (((runSmoothed s (ss.take (k + 1))).2 = [Ev.Drop] ∧
           (runSmoothed s (ss.take k)).2 = []) ↔
          (holdWin (dropCond dl) DROP_HOLDDOWN_S ss k ∧
           ∀ j, j < k → ¬ holdWin (dropCond dl) DROP_HOLDDOWN_S ss j))) ∧
    (∀ (dl rl : ℚ) (s : GameState) (ss : List (ℚ × ℚ)) (k : ℕ),
       StableSt s dl rl →
       (runSmoothed s (ss.take (k + 1))).2 = [Ev.Drop] →
       (runSmoothed s (ss.take k)).2 = [] →
       (runSmoothed s (ss.take (k + 1))).1.is_below = true ∧
       (runSmoothed s (ss.take (k + 1))).1.below_start = 0 ∧
       (runSmoothed s (ss.take (k + 1))).1.above_limit_start = 0) := by
  refine ⟨?_, ?_, ?_, ?_⟩
  · intro s now actual d h1 h2 h3 htrig h4 h5
    unfold step_state_machine_locked
    rw [h2, h3]
    simp [h1, htrig, h4, h5]
  · intro dl rl t x s h hx
    rw [feed_stable_notbelow t x h hx]
    exact ⟨rfl, rfl⟩
  · intro dl rl s ss h hbs0 hok k hk
    have hpos : (0 : ℚ) < DROP_HOLDDOWN_S := by norm_num [DROP_HOLDDOWN_S]
    have hiff := @tfire_eq_some_iff (dropCond dl) DROP_HOLDDOWN_S hpos ss 0 le_rfl hok k
    constructor
    · rintro ⟨he1, he2⟩
      have hfire := stable_fire_of_events h he1 he2
      rw [hbs0] at hfire
      obtain ⟨_, htr, hfirst⟩ := hiff.mp hfire
      exact ⟨trigAt_zero.mp htr,
        fun j hj hwj => hfirst j hj (trigAt_zero.mpr hwj)⟩
    · rintro ⟨hw, hfirst⟩
      have hfire : tfire (dropCond dl) DROP_HOLDDOWN_S 0 ss = some k :=
        hiff.mpr ⟨hk, trigAt_zero.mpr hw,
          fun j hj htj => hfirst j hj (trigAt_zero.mp htj)⟩
      rw [← hbs0] at hfire
      obtain ⟨e1, e2, _⟩ := (stable_sim ss s h).2 k hfire
      exact ⟨e2, e1⟩
  · intro dl rl s ss k h he1 he2
    have hfire := stable_fire_of_events h he1 he2
    obtain ⟨_, _, _, e4, e5, e6, _, _⟩ := (stable_sim ss s h).2 k hfire
    exact ⟨e4, e5, e6⟩

/-- A concrete armed-stable state with both thresholds 10 kg. -/
def stableProbe : GameState :=
  { initState with
      armed := true,
      drop_limit_actual_kg := some 10,
      restore_limit_actual_kg := some 10 }

theorem c1_witness :
    (runSmoothed stableProbe ([((1 : ℚ), (5 : ℚ)), (2, 5)].take 2)).2 =
      [Ev.Drop] ∧
    (runSmoothed stableProbe ([((1 : ℚ), (5 : ℚ)), (2, 5)].take 1)).2 = [] := by
  have hw : holdWin (dropCond 10) DROP_HOLDDOWN_S [((1 : ℚ), (5 : ℚ)), (2, 5)] 1 := by
    refine ⟨0, by omega, ?_, ?_⟩
    · intro j _ hj1 hjl
      interval_cases j <;> with_unfolding_all decide
    · show DROP_HOLDDOWN_S ≤ tms [((1 : ℚ), (5 : ℚ)), (2, 5)] 1 -
        tms [((1 : ℚ), (5 : ℚ)), (2, 5)] 0
      norm_num [DROP_HOLDDOWN_S, tms]
  have hnot : ∀ j, j < 1 →
      ¬ holdWin (dropCond 10) DROP_HOLDDOWN_S [((1 : ℚ), (5 : ℚ)), (2, 5)] j := by
    intro j hj
    interval_cases j
    exact holdWin_zero_false (by norm_num [DROP_HOLDDOWN_S]) _
  have h := (c1_drop_transition.2.2.1 10 10 stableProbe [(1, 5), (2, 5)]
    ⟨rfl, rfl, rfl, rfl⟩ rfl (by norm_num [TimesOK]) 1 (by norm_num)).mpr
    ⟨hw, hnot⟩
  exact ⟨h.1, h.2⟩

/-- C6: the claim says every hold-timer start (arm, drop, restore) is at all
times either unset or the first instant of the current qualifying run, and is
reset by the first sample on which its condition fails.  This is false for
the arm timer once armed: arming does not clear `above_start`, and the armed
branch never touches it.  In the run below the machine arms at t = 9/2 (arm
timer set at t = 1) and then processes a smoothed sample of 30 kg, below the
35 kg trigger, yet `above_start` remains 1 instead of being reset to
unset. -/
theorem c6_counterexample :
    (runSmoothed initState [(1, 40), (9/2, 40), (5, 30)]).1.armed = true ∧
    (runSmoothed initState [(1, 40), (9/2, 40), (5, 30)]).1.smoothed_kg =
      some 30 ∧
    ¬ (MIN_TRIGGER_KG ≤ (30 : ℚ)) ∧
    (runSmoothed initState [(1, 40), (9/2, 40), (5, 30)]).1.above_start = 1 ∧
    (1 : ℚ) ≠ 0 := by
  refine ⟨?_, ?_, ?_, ?_, ?_⟩ <;> with_unfolding_all decide

/-- C6 (amended): each hold timer obeys the unset-or-first-qualifying-instant
invariant within the phase that evaluates it, and a sample failing the
condition resets it: (a) the arm timer over any silent unarmed run, with a
below-trigger sample resetting it (b); (c) the drop timer over any silent
armed-stable run; (d) the restore timer stepwise in the disturbed phase,
cleared together with the drop timer on the restore transition.  The arm
timer, however, keeps its stale value after arming (cleared only by disarm),
as the counterexample shows. -/
theorem c6_hold_timer_invariant :
    (∀ (s : GameState) (ss : List (ℚ × ℚ)),
       s.armed = false → s.above_start = 0 → TimesOK 0 ss →
       (runSmoothed s ss).2 = [] →
       ((runSmoothed s ss).1.above_start = 0 ∨
        ∃ i, i < ss.length ∧
          (runSmoothed s ss).1.above_start = tms ss i ∧
          allCond armCond ss i (ss.length - 1) ∧
          (i = 0 ∨ armCond (rdg ss (i - 1)) = false))) ∧
    (∀ (s : GameState) (t x : ℚ), s.armed = false → ¬ (MIN_TRIGGER_KG ≤ x) →
       (feedSmoothed s (t, x)).1.above_start = 0 ∧
       (feedSmoothed s (t, x)).2 = []) ∧
    (∀ (dl rl : ℚ) (s : GameState) (ss : List (ℚ × ℚ)),
       StableSt s dl rl → s.below_start = 0 → TimesOK 0 ss →
       (runSmoothed s ss).2 = [] →
       ((runSmoothed s ss).1.below_start = 0 ∨
        ∃ i, i < ss.length ∧
          (runSmoothed s ss).1.below_start = tms ss i ∧
          allCond (dropCond dl) ss i (ss.length - 1) ∧
          (i = 0 ∨ dropCond dl (rdg ss (i - 1)) = false))) ∧
    (∀ (dl rl t x : ℚ) (s : GameState), DisturbedSt s dl rl →
      (¬ (rl ≤ x) →
        (feedSmoothed s (t, x)).1.above_limit_start = 0 ∧
        (feedSmoothed s (t, x)).2 = []) ∧
      (rl ≤ x → s.above_limit_start = 0 →
        (feedSmoothed s (t, x)).1.above_limit_start = t ∧
        (feedSmoothed s (t, x)).2 = []) ∧
      (rl ≤ x → s.above_limit_start ≠ 0 →
        ¬ (RESTORE_HOLDDOWN_S ≤ t - s.above_limit_start) →
        (feedSmoothed s (t, x)).1.above_limit_start = s.above_limit_start ∧
        (feedSmoothed s (t, x)).2 = []) ∧
      (rl ≤ x → s.above_limit_start ≠ 0 →
        RESTORE_HOLDDOWN_S ≤ t - s.above_limit_start →
        (feedSmoothed s (t, x)).1.above_limit_start = 0 ∧
        (feedSmoothed s (t, x)).1.below_start = 0 ∧
        (feedSmoothed s (t, x)).1.is_below = false ∧
        (feedSmoothed s (t, x)).2 = [Ev.Restore])) := by
  refine ⟨?_, ?_, ?_, ?_⟩
  · intro s ss h hbs0 hok hsilent
    have hnone := unarmed_nofire_of_silent h hsilent
    obtain ⟨_, _, e3⟩ := (unarmed_sim ss s h).1 hnone
    rw [hbs0] at e3
    rcases tfinal_char ss 0 le_rfl hok with ⟨h1, _⟩ | h1 | ⟨i, hi, h1, h2, h3⟩
    · left; rw [e3, h1]
    · left; rw [e3, h1]
    · right
      refine ⟨i, hi, by rw [e3, h1], h2, ?_⟩
      rcases h3 with ⟨h30, _⟩ | ⟨_, hp⟩
      · exact Or.inl h30
      · exact Or.inr hp
  · intro s t x h hx
    rw [feed_unarmed_under t x h hx]
    exact ⟨rfl, rfl⟩
  · intro dl rl s ss h hbs0 hok hsilent
    have hnone := stable_nofire_of_silent h hsilent
    obtain ⟨_, _, e3⟩ := (stable_sim ss s h).1 hnone
    rw [hbs0] at e3
    rcases tfinal_char ss 0 le_rfl hok with ⟨h1, _⟩ | h1 | ⟨i, hi, h1, h2, h3⟩
    · left; rw [e3, h1]
    · left; rw [e3, h1]
    · right
      refine ⟨i, hi, by rw [e3, h1], h2, ?_⟩
      rcases h3 with ⟨h30, _⟩ | ⟨_, hp⟩
      · exact Or.inl h30
      · exact Or.inr hp
  · intro dl rl t x s h
    refine ⟨?_, ?_, ?_, ?_⟩
    · intro hx
      rw [feed_disturbed_under t x h hx]
      exact ⟨rfl, rfl⟩
    · intro hx hals
      rw [feed_disturbed_over t x h hx, hals, if_pos rfl, if_neg ?hc]
      case hc => norm_num [RESTORE_HOLDDOWN_S]
      exact ⟨rfl, rfl⟩
    · intro hx hals hnf
      rw [feed_disturbed_over t x h hx, if_neg hals, if_neg hnf]
      exact ⟨rfl, rfl⟩
    · intro hx hals hf
      rw [feed_disturbed_over t x h hx, if_neg hals, if_pos hf]
      exact ⟨rfl, rfl, rfl, rfl⟩

theorem c6_witness :
    ((runSmoothed initState [((1 : ℚ), (40 : ℚ))]).1.above_start = 0 ∨
     ∃ i, i < ([((1 : ℚ), (40 : ℚ))] : List (ℚ × ℚ)).length ∧
       (runSmoothed initState [((1 : ℚ), (40 : ℚ))]).1.above_start =
         tms [((1 : ℚ), (40 : ℚ))] i ∧
       allCond armCond [((1 : ℚ), (40 : ℚ))] i
         (([((1 : ℚ), (40 : ℚ))] : List (ℚ × ℚ)).length - 1) ∧
       (i = 0 ∨ armCond (rdg [((1 : ℚ), (40 : ℚ))] (i - 1)) = false)) ∧
    ((feedSmoothed initState (1, 10)).1.above_start = 0 ∧
     (feedSmoothed initState (1, 10)).2 = []) :=
  ⟨c6_hold_timer_invariant.1 initState [((1 : ℚ), (40 : ℚ))] rfl rfl
      (by norm_num [TimesOK]) (by with_unfolding_all decide),
   c6_hold_timer_invariant.2.1 initState 1 10 rfl
      (by norm_num [MIN_TRIGGER_KG])⟩

end ScaleTest
